import Mathlib

/-!
Verification of the directory-synchronization engine of the `toolbox`
repository (`irods/sync_directory.py`), as a shallow embedding.

The remote iRODS store is modelled as a finite map of collection paths and
data-object paths; each remote call made by the engine is recorded in an
operation trace so that temporal claims (ordering of collection creation,
which files are verified, when checksums are fetched) can be stated.  The
SHA-256 digest machinery (`irods_to_sha256_checksum`, incremental hashing)
is abstracted into an opaque content token carried by files and objects:
the digest comparison in `compare_checksums` becomes a comparison of
content tokens, which is faithful for every claim treated here (none
depends on hash collisions or on the base64 encoding itself).
-/

/-- A local file as seen by `directory.iterdir()`: its name, its
`stat().st_size`, and an opaque content token standing for its bytes. -/
structure FileNode where
  name : String
  size : Nat
  content : Nat
deriving DecidableEq, Repr

/-- A remote data object: its size, its content token (whose digest
`obj.chksum()` reports), and whether the object is locked, in which case
`chksum()` raises the iRODS error `-1803000`. -/
structure RObj where
  size : Nat
  content : Nat
  locked : Bool
deriving DecidableEq, Repr

/-- The remote store: the set of existing collection paths and the data
objects keyed by path.  Later entries are shadowed by earlier ones, so
`putObj` overwrites by consing. -/
structure Store where
  colls : List String
  objs : List (String × RObj)
deriving DecidableEq, Repr

/-- `session.data_objects.get(p)`: `some` the object, or `none` when the
data object (or its collection) does not exist, which in the Python client
raises `DataObjectDoesNotExist` / `CollectionDoesNotExist`. -/
def lookupObj (st : Store) (p : String) : Option RObj :=
  match st.objs.find? (fun q => q.1 == p) with
  | some q => some q.2
  | none => none

/-- Overwrite (or create) the data object at path `p`. -/
def putObj (st : Store) (p : String) (o : RObj) : Store :=
  { st with objs := (p, o) :: st.objs }

/-- One remote (or hashing) operation performed by the engine, for the
operation trace. -/
inductive ROp where
  | getColl (p : String)
  | createColl (p : String)
  | getObj (p : String)
  | chksumOp (p : String)
  | localHash (p : String)
  | putOp (src dst : String)
  | addMeta (p : String)
deriving DecidableEq, Repr

/-- The one unhandled error the engine can raise on its own: with a
verification method outside `{size, checksum}` neither branch of the
`if/elif` assigns `files_match`, and reading it raises `UnboundLocalError`
on the first file of the directory (sync_directory.py lines 300-306). -/
inductive SyncErr where
  | filesMatchNotAssigned
deriving DecidableEq, Repr

/-- `compare_filesize` (sync_directory.py lines 18-56): fetch the remote
object, compare sizes; a missing object or collection yields `false`. -/
def compare_filesize (st : Store) (f : FileNode) (dst : String) :
    Bool × List ROp :=
  match lookupObj st dst with
  | some o => (o.size == f.size, [ROp.getObj dst])
  | none => (false, [ROp.getObj dst])

/-- `compare_checksums` (sync_directory.py lines 139-190): fetch the remote
object (missing ⇒ `false`); unequal sizes ⇒ `false` before any checksum
request; a locked object (`chksum()` raising `-1803000`) ⇒ `false`;
otherwise fetch the remote checksum, hash the local file and compare.  The
digest comparison is modelled on content tokens. -/
def compare_checksums (st : Store) (f : FileNode) (dst : String) :
    Bool × List ROp :=
  match lookupObj st dst with
  | none => (false, [ROp.getObj dst])
  | some o =>
    if o.size != f.size then (false, [ROp.getObj dst])
    else if o.locked then (false, [ROp.getObj dst, ROp.chksumOp dst])
    else (o.content == f.content,
      [ROp.getObj dst, ROp.chksumOp dst, ROp.localHash dst])

/-- Outcome of one `session.data_objects.put` call: the transfer may fail
(raising inside `upload_file`'s `try`), store the local bytes faithfully,
or complete while landing different bytes on the remote side (the
in-flight corruption that `post_check` exists to detect). -/
inductive PutOutcome where
  | fail
  | faithful
  | corrupted (sz ct : Nat)
deriving DecidableEq, Repr

/-- `upload_file` (sync_directory.py lines 193-231): `put` the file, then
optionally re-verify with `compare_checksums`; any raise inside the `try`
is caught and reported as `false`. -/
def upload_file (putOut : String → PutOutcome) (st : Store) (f : FileNode)
    (lp dst : String) (post : Bool) : Bool × Store × List ROp :=
  match putOut dst with
  | PutOutcome.fail => (false, st, [ROp.putOp lp dst])
  | PutOutcome.faithful =>
    let st1 := putObj st dst ⟨f.size, f.content, false⟩
    if post then
      let r := compare_checksums st1 f dst
      (r.1, st1, ROp.putOp lp dst :: r.2)
    else (true, st1, [ROp.putOp lp dst])
  | PutOutcome.corrupted sz ct =>
    let st1 := putObj st dst ⟨sz, ct, false⟩
    if post then
      let r := compare_checksums st1 f dst
      (r.1, st1, ROp.putOp lp dst :: r.2)
    else (true, st1, [ROp.putOp lp dst])

/-- The verification dispatch of sync_directory.py lines 300-304: `none`
when `verification_method` matches neither branch, so that `files_match`
is read unassigned. -/
def verify (vm : String) (st : Store) (f : FileNode) (dst : String) :
    Option (Bool × List ROp) :=
  if vm == "size" then some (compare_filesize st f dst)
  else if vm == "checksum" then some (compare_checksums st f dst)
  else none

/-- The result dictionary built at sync_directory.py lines 325-330. -/
structure Report where
  succeeded : List String
  skipped : List String
  failed : List String
  cumulative_filesize_in_bytes : Nat
deriving DecidableEq, Repr

instance : DecidableEq (Except SyncErr Report) := fun a b =>
  match a, b with
  | .ok x, .ok y =>
    if h : x = y then isTrue (congrArg Except.ok h)
    else isFalse (fun hh => h (Except.ok.inj hh))
  | .error x, .error y =>
    if h : x = y then isTrue (congrArg Except.error h)
    else isFalse (fun hh => h (Except.error.inj hh))
  | .ok _, .error _ => isFalse (fun hh => Except.noConfusion hh)
  | .error _, .ok _ => isFalse (fun hh => Except.noConfusion hh)

def emptyReport : Report := ⟨[], [], [], 0⟩

/-- The `extend` block of sync_directory.py lines 343-348. -/
def mergeReport (a b : Report) : Report :=
  ⟨a.succeeded ++ b.succeeded, a.skipped ++ b.skipped, a.failed ++ b.failed,
    a.cumulative_filesize_in_bytes + b.cumulative_filesize_in_bytes⟩

/-- A local directory tree: the directory's name, its plain files, and its
subdirectories (both as `iterdir()` enumerates them). -/
inductive FTree where
  | node (name : String) (files : List FileNode) (subdirs : List FTree)

def FTree.name : FTree → String
  | .node n _ _ => n

def FTree.files : FTree → List FileNode
  | .node _ fs _ => fs

def FTree.subdirs : FTree → List FTree
  | .node _ _ s => s

/-- The `try collections.get / except create` block of sync_directory.py
lines 289-293: an existing collection is left untouched, an absent one is
created. -/
def ensureColl (st : Store) (p : String) : Store × List ROp :=
  if p ∈ st.colls then (st, [ROp.getColl p])
  else ({ st with colls := p :: st.colls }, [ROp.getColl p, ROp.createColl p])

/-- The per-file loop of sync_directory.py lines 296-323: verify each file,
upload when out of sync (logging success with the remote size re-fetched at
line 311, plus metadata when configured), record failures by local path and
skips by data-object path.  An unassigned `files_match` aborts the whole
call, losing the accumulated lists. -/
def syncFiles (vm : String) (post doMeta : Bool)
    (putOut : String → PutOutcome) (src collection : String) :
    List FileNode → Store → Except SyncErr Report × Store × List ROp
  | [], st => (.ok emptyReport, st, [])
  | f :: rest, st =>
    let dst := collection ++ "/" ++ f.name
    let lp := src ++ "/" ++ f.name
    match verify vm st f dst with
    | none => (.error SyncErr.filesMatchNotAssigned, st, [])
    | some (matched, vops) =>
      if matched then
        match syncFiles vm post doMeta putOut src collection rest st with
        | (.ok r, st2, ops) =>
          (.ok { r with skipped := dst :: r.skipped }, st2, vops ++ ops)
        | (.error e, st2, ops) => (.error e, st2, vops ++ ops)
      else
        match upload_file putOut st f lp dst post with
        | (true, st1, uops) =>
          let sizeGot := (lookupObj st1 dst).elim 0 (fun o => o.size)
          let mops := if doMeta then [ROp.getObj dst, ROp.addMeta dst] else []
          match syncFiles vm post doMeta putOut src collection rest st1 with
          | (.ok r, st2, ops) =>
            (.ok ⟨dst :: r.succeeded, r.skipped, r.failed,
                sizeGot + r.cumulative_filesize_in_bytes⟩,
              st2, vops ++ uops ++ (ROp.getObj dst :: mops) ++ ops)
          | (.error e, st2, ops) =>
            (.error e, st2, vops ++ uops ++ (ROp.getObj dst :: mops) ++ ops)
        | (false, st1, uops) =>
          match syncFiles vm post doMeta putOut src collection rest st1 with
          | (.ok r, st2, ops) =>
            (.ok { r with failed := lp :: r.failed }, st2, vops ++ uops ++ ops)
          | (.error e, st2, ops) => (.error e, st2, vops ++ uops ++ ops)

mutual

/-- `sync_directory` (sync_directory.py lines 234-350): ensure the mirror
collection for this directory, process its files, then recurse into each
subdirectory, merging the returned result dictionaries. -/
def syncTree (vm : String) (post doMeta : Bool)
    (putOut : String → PutOutcome) (src : String) (t : FTree)
    (destination : String) (st : Store) :
    Except SyncErr Report × Store × List ROp :=
  match t with
  | .node n fs subs =>
    let collection := destination ++ "/" ++ n
    let e := ensureColl st collection
    match syncFiles vm post doMeta putOut src collection fs e.1 with
    | (.error er, st2, fops) => (.error er, st2, e.2 ++ fops)
    | (.ok r, st2, fops) =>
      match syncSubs vm post doMeta putOut src collection subs st2 with
      | (.error er, st3, sops) => (.error er, st3, e.2 ++ fops ++ sops)
      | (.ok r2, st3, sops) =>
        (.ok (mergeReport r r2), st3, e.2 ++ fops ++ sops)

/-- The subdirectory loop of sync_directory.py lines 332-348. -/
def syncSubs (vm : String) (post doMeta : Bool)
    (putOut : String → PutOutcome) (src collection : String)
    (l : List FTree) (st : Store) :
    Except SyncErr Report × Store × List ROp :=
  match l with
  | [] => (.ok emptyReport, st, [])
  | d :: rest =>
    match syncTree vm post doMeta putOut (src ++ "/" ++ d.name) d
        collection st with
    | (.error e, st1, ops) => (.error e, st1, ops)
    | (.ok r, st1, ops) =>
      match syncSubs vm post doMeta putOut src collection rest st1 with
      | (.error e, st2, ops2) => (.error e, st2, ops ++ ops2)
      | (.ok r2, st2, ops2) => (.ok (mergeReport r r2), st2, ops ++ ops2)

end

/-- A JSON value, for the artifact `write_results_to_log` persists. -/
inductive JVal where
  | str (s : String)
  | num (n : Nat)
  | arr (l : List JVal)
  | obj (fields : List (String × JVal))

/-- The JSON object `json.dump` writes: exactly the dictionary built at
sync_directory.py lines 325-330. -/
def resultsJson (r : Report) : JVal :=
  .obj [("succeeded", .arr (r.succeeded.map JVal.str)),
    ("skipped", .arr (r.skipped.map JVal.str)),
    ("failed", .arr (r.failed.map JVal.str)),
    ("cumulative_filesize_in_bytes", .num r.cumulative_filesize_in_bytes)]

/-- The top-level keys of a JSON object. -/
def jsonKeys : JVal → List String
  | .obj fields => fields.map (fun kv => kv.1)
  | _ => []

/-- The `__main__` block of sync_directory.py lines 422-439: run the sync,
then — only when it returned normally — dump the result dictionary with
`write_results_to_log` (lines 353-361).  An exception propagating out of
`sync_directory` leaves the `with` block before line 438 runs, so nothing
is persisted.  The second component is the persisted artifact. -/
def runMain (vm : String) (post doMeta : Bool)
    (putOut : String → PutOutcome) (src : String) (t : FTree)
    (destination : String) (st : Store) :
    Except SyncErr Report × Option JVal × Store × List ROp :=
  match syncTree vm post doMeta putOut src t destination st with
  | (.ok r, st2, ops) => (.ok r, some (resultsJson r), st2, ops)
  | (.error e, st2, ops) => (.error e, none, st2, ops)

/-- A directory name as `iterdir` can produce it: nonempty, no separator. -/
def nameOk (s : String) : Bool :=
  !s.data.isEmpty && s.data.all (fun c => c != '/')

mutual

/-- Well-formedness of a local tree, as every on-disk directory satisfies
it: names are nonempty and separator-free, and the entries of one
directory (files and subdirectories together) have pairwise distinct
names. -/
def wfTree : FTree → Bool
  | .node n fs subs =>
    nameOk n && fs.all (fun f => nameOk f.name) &&
      decide ((fs.map (fun f => f.name) ++ subs.map FTree.name).Nodup) &&
      wfForest subs

def wfForest : List FTree → Bool
  | [] => true
  | t :: r => wfTree t && wfForest r

end

mutual

/-- Every file `sync_directory` discovers under the tree, with the local
path `str(file)` and the data-object path it computes for it. -/
def entriesTree (src destination : String) :
    FTree → List (FileNode × String × String)
  | .node n fs subs =>
    fs.map (fun f =>
        (f, src ++ "/" ++ f.name, destination ++ "/" ++ n ++ "/" ++ f.name))
      ++ entriesForest src (destination ++ "/" ++ n) subs

def entriesForest (src collection : String) :
    List FTree → List (FileNode × String × String)
  | [] => []
  | d :: rest =>
    entriesTree (src ++ "/" ++ d.name) collection d
      ++ entriesForest src collection rest

end

mutual

/-- Every destination collection path `sync_directory` addresses, in the
order it addresses them. -/
def collsTree (destination : String) : FTree → List String
  | .node n _ subs =>
    (destination ++ "/" ++ n)
      :: collsForest (destination ++ "/" ++ n) subs

def collsForest (collection : String) : List FTree → List String
  | [] => []
  | d :: rest => collsTree collection d ++ collsForest collection rest

end

/-- The collection existence checks of a trace, in order. -/
def getColls : List ROp → List String
  | [] => []
  | ROp.getColl p :: r => p :: getColls r
  | _ :: r => getColls r

/-- Replay a trace over a set of existing collection paths, checking that
every `createColl` targets a path that does not exist at that moment —
i.e. that `session.collections.create` is never handed an existing
collection and so can never raise an already-exists error. -/
def createsFresh (cs : List String) : List ROp → Bool
  | [] => true
  | ROp.createColl p :: r => !(cs.contains p) && createsFresh (p :: cs) r
  | _ :: r => createsFresh cs r

/-- The collection paths existing after replaying a trace. -/
def collsAfter (cs : List String) : List ROp → List String
  | [] => cs
  | ROp.createColl p :: r => collsAfter (p :: cs) r
  | _ :: r => collsAfter cs r

example :
    (syncTree "size" false false (fun _ => PutOutcome.faithful) "/s"
      (FTree.node "d" [⟨"a", 5, 7⟩] [FTree.node "x" [⟨"b", 3, 1⟩] []])
      "/z" ⟨[], []⟩).1 =
    Except.ok ⟨["/z/d/a", "/z/d/x/b"], [], [], 8⟩ := by
  decide

theorem lookupObj_putObj_self (st : Store) (p : String) (o : RObj) :
    lookupObj (putObj st p o) p = some o := by
  unfold lookupObj putObj
  simp

theorem lookupObj_putObj_other (st : Store) (p q : String) (o : RObj)
    (h : q ≠ p) : lookupObj (putObj st p o) q = lookupObj st q := by
  unfold lookupObj putObj
  have : (p == q) = false := by simp [Ne.symm h]
  simp [this]

/-! ### Path strings

The engine builds every path by `f"{base}/{name}"`; the lemmas below give
the algebra of such strings, reduced to their character lists. -/

theorem str_data_app3 (a u : String) :
    (a ++ "/" ++ u).data = a.data ++ '/' :: u.data := by
  rw [String.data_append, String.data_append]
  simp

theorem path_assoc (a b c : String) :
    a ++ "/" ++ b ++ "/" ++ c = a ++ "/" ++ (b ++ "/" ++ c) := by
  apply String.ext
  rw [str_data_app3, str_data_app3 a (b ++ "/" ++ c), str_data_app3]
  rw [String.data_append]
  simp

theorem str_cancel (a u v : String) (h : a ++ "/" ++ u = a ++ "/" ++ v) :
    u = v := by
  apply String.ext
  have hd := congrArg String.data h
  rw [str_data_app3, str_data_app3] at hd
  have := List.append_cancel_left hd
  exact List.cons.inj this |>.2

/-- Two slash-free components followed by the separator determine each
other: `a ++ "/" ++ u = b ++ "/" ++ v` with `a`, `b` slash-free forces
`a = b` and `u = v`. -/
theorem sep_inj_data (a b u v : List Char) (ha : '/' ∉ a) (hb : '/' ∉ b)
    (h : a ++ '/' :: u = b ++ '/' :: v) : a = b ∧ u = v := by
  induction a generalizing b with
  | nil =>
    cases b with
    | nil => simpa using h
    | cons d bs =>
      simp at h
      exact absurd (by simp [h.1.symm] : '/' ∈ d :: bs) hb
  | cons c as ih =>
    cases b with
    | nil =>
      simp at h
      exact absurd (by simp [h.1] : '/' ∈ c :: as) ha
    | cons d bs =>
      simp at h
      obtain ⟨hcd, htl⟩ := h
      have ha' : '/' ∉ as := fun hm => ha (List.mem_cons_of_mem c hm)
      have hb' : '/' ∉ bs := fun hm => hb (List.mem_cons_of_mem d hm)
      obtain ⟨h1, h2⟩ := ih bs ha' hb' htl
      exact ⟨by rw [hcd, h1], h2⟩

theorem sep_inj (a b u v : String) (ha : '/' ∉ a.data) (hb : '/' ∉ b.data)
    (h : a ++ "/" ++ u = b ++ "/" ++ v) : a = b ∧ u = v := by
  have hd := congrArg String.data h
  rw [str_data_app3, str_data_app3] at hd
  obtain ⟨h1, h2⟩ := sep_inj_data a.data b.data u.data v.data ha hb hd
  exact ⟨String.ext h1, String.ext h2⟩

/-- A slash-free name is never a deeper path. -/
theorem noSlash_ne_deep (n m y : String) (hn : '/' ∉ n.data) :
    n ≠ m ++ "/" ++ y := by
  intro h
  apply hn
  rw [h, str_data_app3]
  exact List.mem_append_right m.data (List.mem_cons_self '/' y.data)

/-- No path equals a strict extension of itself. -/
theorem ne_self_extend (p s : String) : p ≠ p ++ "/" ++ s := by
  intro h
  have hd := congrArg (fun t => t.data.length) h
  simp only [str_data_app3, List.length_append, List.length_cons] at hd
  omega

/-- Textually prefix-incomparable roots generate disjoint path
namespaces. -/
theorem sep_roots (src dest : String) (h1 : ¬src.data <+: dest.data)
    (h2 : ¬dest.data <+: src.data) :
    ∀ x y : String, src ++ "/" ++ x ≠ dest ++ "/" ++ y := by
  intro x y h
  have hd := congrArg String.data h
  rw [str_data_app3, str_data_app3] at hd
  have hp1 : src.data <+: (src.data ++ '/' :: x.data) := ⟨'/' :: x.data, rfl⟩
  have hp2 : dest.data <+: (src.data ++ '/' :: x.data) := by
    rw [hd]
    exact ⟨'/' :: y.data, rfl⟩
  rcases List.prefix_or_prefix_of_prefix hp1 hp2 with hp | hp
  · exact h1 hp
  · exact h2 hp

theorem nameOk_spec (s : String) (h : nameOk s = true) :
    s.data ≠ [] ∧ '/' ∉ s.data := by
  unfold nameOk at h
  simp only [Bool.and_eq_true, List.all_eq_true] at h
  constructor
  · intro he
    rw [← List.isEmpty_iff] at he
    rw [he] at h
    simp at h
  · intro hm
    have := h.2 '/' hm
    simp at this

/-- C5: with either verification strategy, an absent remote object (the
lookup that raises `DataObjectDoesNotExist` / `CollectionDoesNotExist` in
the Python client) yields the out-of-sync verdict `false`; the functions
are total, so the not-found condition never propagates to the caller. -/
theorem c5_absence_is_out_of_sync (st : Store) (f : FileNode) (dst : String)
    (h : lookupObj st dst = none) :
    (compare_filesize st f dst).1 = false ∧
      (compare_checksums st f dst).1 = false := by
  unfold compare_filesize compare_checksums
  rw [h]
  exact ⟨rfl, rfl⟩

theorem c5_absence_is_out_of_sync_witness :
    lookupObj ⟨[], []⟩ "/z/d/a" = none ∧
      (compare_filesize ⟨[], []⟩ ⟨"a", 1, 0⟩ "/z/d/a").1 = false ∧
      (compare_checksums ⟨[], []⟩ ⟨"a", 1, 0⟩ "/z/d/a").1 = false :=
  ⟨rfl,
    (c5_absence_is_out_of_sync ⟨[], []⟩ ⟨"a", 1, 0⟩ "/z/d/a" rfl).1,
    (c5_absence_is_out_of_sync ⟨[], []⟩ ⟨"a", 1, 0⟩ "/z/d/a" rfl).2⟩

/-- C6: for an existing remote object, `compare_checksums` returns `false`
immediately when the sizes differ — its trace then holds no checksum
request and no local hashing — and returns `false` when the remote
checksum request fails because the object is locked. -/
theorem c6_size_short_circuit_and_locked (st : Store) (f : FileNode)
    (dst : String) (o : RObj) (h : lookupObj st dst = some o) :
    (o.size ≠ f.size →
      (compare_checksums st f dst).1 = false ∧
        ROp.chksumOp dst ∉ (compare_checksums st f dst).2 ∧
        ROp.localHash dst ∉ (compare_checksums st f dst).2) ∧
      (o.size = f.size → o.locked = true →
        (compare_checksums st f dst).1 = false) := by
  unfold compare_checksums
  rw [h]
  constructor
  · intro hne
    have : (o.size != f.size) = true := by simpa using hne
    simp [this]
  · intro hsz hl
    have : (o.size != f.size) = false := by simpa using hsz
    simp [this, hl]

theorem c6_size_short_circuit_and_locked_witness :
    lookupObj ⟨["/z/d"], [("/z/d/a", ⟨3, 9, false⟩)]⟩ "/z/d/a"
        = some ⟨3, 9, false⟩ ∧
      (3 : Nat) ≠ 5 ∧
      (compare_checksums ⟨["/z/d"], [("/z/d/a", ⟨3, 9, false⟩)]⟩
          ⟨"a", 5, 9⟩ "/z/d/a").1 = false ∧
      ROp.chksumOp "/z/d/a" ∉
        (compare_checksums ⟨["/z/d"], [("/z/d/a", ⟨3, 9, false⟩)]⟩
          ⟨"a", 5, 9⟩ "/z/d/a").2 ∧
      ROp.localHash "/z/d/a" ∉
        (compare_checksums ⟨["/z/d"], [("/z/d/a", ⟨3, 9, false⟩)]⟩
          ⟨"a", 5, 9⟩ "/z/d/a").2 := by
  refine ⟨rfl, by decide, ?_⟩
  have h := (c6_size_short_circuit_and_locked
    ⟨["/z/d"], [("/z/d/a", ⟨3, 9, false⟩)]⟩ ⟨"a", 5, 9⟩ "/z/d/a"
    ⟨3, 9, false⟩ rfl).1 (by decide)
  exact ⟨h.1, h.2.1, h.2.2⟩

/-- C7: `upload_file` reports a failed `put` as `false` instead of
propagating it, and with `post_check` set a completed transfer whose
remote bytes do not match the local file is downgraded to `false`. -/
theorem c7_upload_failure_contained (putOut : String → PutOutcome)
    (st : Store) (f : FileNode) (lp dst : String) (post : Bool) :
    (putOut dst = PutOutcome.fail →
      (upload_file putOut st f lp dst post).1 = false) ∧
      (∀ sz ct, putOut dst = PutOutcome.corrupted sz ct → post = true →
        sz ≠ f.size ∨ ct ≠ f.content →
        (upload_file putOut st f lp dst post).1 = false) := by
  constructor
  · intro h
    unfold upload_file
    rw [h]
  · intro sz ct h hpost hne
    unfold upload_file
    rw [h, hpost]
    simp only [if_true]
    unfold compare_checksums
    rw [lookupObj_putObj_self]
    rcases hne with hne | hne
    · have : (sz != f.size) = true := by simpa using hne
      simp [this]
    · rcases Decidable.em (sz = f.size) with hsz | hsz
      · have h1 : (sz != f.size) = false := by simpa using hsz
        have h2 : (ct == f.content) = false := by simpa using hne
        simp [h1, h2]
      · have : (sz != f.size) = true := by simpa using hsz
        simp [this]

theorem c7_upload_failure_contained_witness :
    ((fun _ => PutOutcome.fail) "/z/d/a" = PutOutcome.fail ∧
      (upload_file (fun _ => PutOutcome.fail) ⟨[], []⟩ ⟨"a", 5, 7⟩
        "/s/a" "/z/d/a" false).1 = false) ∧
      ((fun _ => PutOutcome.corrupted 5 8) "/z/d/a"
          = PutOutcome.corrupted 5 8 ∧
        (upload_file (fun _ => PutOutcome.corrupted 5 8) ⟨[], []⟩
          ⟨"a", 5, 7⟩ "/s/a" "/z/d/a" true).1 = false) :=
  ⟨⟨rfl, (c7_upload_failure_contained (fun _ => PutOutcome.fail) ⟨[], []⟩
      ⟨"a", 5, 7⟩ "/s/a" "/z/d/a" false).1 rfl⟩,
    ⟨rfl, (c7_upload_failure_contained (fun _ => PutOutcome.corrupted 5 8)
      ⟨[], []⟩ ⟨"a", 5, 7⟩ "/s/a" "/z/d/a" true).2 5 8 rfl rfl
      (Or.inr (by decide))⟩⟩

/-- C10: with a verification method outside `{size, checksum}` and at
least one file in the source directory, `sync_directory` aborts with the
unassigned-`files_match` error on the first file: nothing is recorded in
any report list and the only remote operations performed are the
collection existence check / creation for the directory itself. -/
theorem c10_bad_method_raises (vm src destination : String) (t : FTree)
    (st : Store) (post doMeta : Bool) (putOut : String → PutOutcome)
    (hvm : vm ≠ "size" ∧ vm ≠ "checksum") (hf : t.files ≠ []) :
    ∃ st2 ops,
      syncTree vm post doMeta putOut src t destination st
          = (.error SyncErr.filesMatchNotAssigned, st2, ops) ∧
        ∀ op ∈ ops, ∃ p, op = ROp.getColl p ∨ op = ROp.createColl p := by
  obtain ⟨n, fs, subs⟩ := t
  have hv : ∀ st' f dst, verify vm st' f dst = none := by
    intro st' f dst
    unfold verify
    have h1 : (vm == "size") = false := by
      simpa using hvm.1
    have h2 : (vm == "checksum") = false := by
      simpa using hvm.2
    rw [h1, h2]
    rfl
  cases fs with
  | nil => simp [FTree.files] at hf
  | cons f rest =>
    refine ⟨(ensureColl st (destination ++ "/" ++ n)).1,
      (ensureColl st (destination ++ "/" ++ n)).2, ?_, ?_⟩
    · unfold syncTree
      unfold syncFiles
      simp only [hv]
      unfold ensureColl
      rcases Decidable.em ((destination ++ "/" ++ n) ∈ st.colls) with h | h
      · simp [h]
      · simp [h]
    · intro op hop
      unfold ensureColl at hop
      rcases Decidable.em ((destination ++ "/" ++ n) ∈ st.colls) with h | h
      · simp [h] at hop
        exact ⟨destination ++ "/" ++ n, Or.inl hop⟩
      · simp [h] at hop
        rcases hop with hop | hop
        · exact ⟨destination ++ "/" ++ n, Or.inl hop⟩
        · exact ⟨destination ++ "/" ++ n, Or.inr hop⟩

theorem c10_bad_method_raises_witness :
    ("filesize" ≠ "size" ∧ "filesize" ≠ "checksum") ∧
      (FTree.node "d" [⟨"a", 1, 0⟩] []).files ≠ [] ∧
      ∃ st2 ops,
        syncTree "filesize" false false (fun _ => PutOutcome.faithful)
            "/s" (FTree.node "d" [⟨"a", 1, 0⟩] []) "/z" ⟨[], []⟩
            = (.error SyncErr.filesMatchNotAssigned, st2, ops) ∧
          ∀ op ∈ ops, ∃ p, op = ROp.getColl p ∨ op = ROp.createColl p :=
  ⟨⟨by decide, by decide⟩, by decide,
    c10_bad_method_raises "filesize" "/s" "/z"
      (FTree.node "d" [⟨"a", 1, 0⟩] []) ⟨[], []⟩ false false
      (fun _ => PutOutcome.faithful) ⟨by decide, by decide⟩ (by decide)⟩

/-- C2 (amended): the run report is persisted exactly when the sync loop
completes normally.  `write_results_to_log` runs only after
`sync_directory` has returned (line 438); when an unexpected error
propagates out of the loop, nothing is written and every accumulated
partial result is lost. -/
theorem c2_amended_persist_only_on_success (vm : String) (post doMeta : Bool)
    (putOut : String → PutOutcome) (src : String) (t : FTree)
    (destination : String) (st : Store) :
    (∀ r, (syncTree vm post doMeta putOut src t destination st).1 = .ok r →
        (runMain vm post doMeta putOut src t destination st).2.1
          = some (resultsJson r)) ∧
      (∀ e, (syncTree vm post doMeta putOut src t destination st).1
            = .error e →
        (runMain vm post doMeta putOut src t destination st).2.1 = none) := by
  unfold runMain
  rcases hs : syncTree vm post doMeta putOut src t destination st with
    ⟨res, st2, ops⟩
  cases res with
  | ok r =>
    constructor
    · intro r2 hr2
      simp at hr2
      rw [hr2]
    · intro e he
      simp at he
  | error e =>
    constructor
    · intro r2 hr2
      simp at hr2
    · intro e2 he2
      rfl

theorem c2_amended_persist_only_on_success_witness :
    (syncTree "filesize" false false (fun _ => PutOutcome.faithful) "/s"
        (FTree.node "d" [⟨"a", 1, 0⟩] []) "/z" ⟨[], []⟩).1
      = .error SyncErr.filesMatchNotAssigned ∧
      (runMain "filesize" false false (fun _ => PutOutcome.faithful) "/s"
        (FTree.node "d" [⟨"a", 1, 0⟩] []) "/z" ⟨[], []⟩).2.1 = none :=
  ⟨by decide,
    (c2_amended_persist_only_on_success "filesize" false false
      (fun _ => PutOutcome.faithful) "/s" (FTree.node "d" [⟨"a", 1, 0⟩] [])
      "/z" ⟨[], []⟩).2 SyncErr.filesMatchNotAssigned (by decide)⟩

/-- C2 (counterexample): a run out of which an unexpected error propagates
(here the unassigned-`files_match` error) persists nothing — refuting the
claim that the accumulated report is always written before re-raising. -/
theorem c2_counterexample :
    (runMain "filesize" false false (fun _ => PutOutcome.faithful) "/s"
        (FTree.node "d" [⟨"a", 1, 0⟩] []) "/z" ⟨[], []⟩).1
      = .error SyncErr.filesMatchNotAssigned ∧
      (runMain "filesize" false false (fun _ => PutOutcome.faithful) "/s"
        (FTree.node "d" [⟨"a", 1, 0⟩] []) "/z" ⟨[], []⟩).2.1 = none :=
  ⟨rfl, rfl⟩

/-- C8 (amended): the persisted artifact has exactly the four fields
`succeeded`, `skipped`, `failed`, `cumulative_filesize_in_bytes` — lists
of path strings and an integer — and carries no `source` or `destination`
field. -/
theorem c8_amended_schema (r : Report) :
    resultsJson r
        = JVal.obj [("succeeded", JVal.arr (r.succeeded.map JVal.str)),
          ("skipped", JVal.arr (r.skipped.map JVal.str)),
          ("failed", JVal.arr (r.failed.map JVal.str)),
          ("cumulative_filesize_in_bytes",
            JVal.num r.cumulative_filesize_in_bytes)] ∧
      jsonKeys (resultsJson r)
        = ["succeeded", "skipped", "failed",
          "cumulative_filesize_in_bytes"] ∧
      "source" ∉ jsonKeys (resultsJson r) ∧
      "destination" ∉ jsonKeys (resultsJson r) := by
  have hk : jsonKeys (resultsJson r)
      = ["succeeded", "skipped", "failed",
        "cumulative_filesize_in_bytes"] := rfl
  refine ⟨rfl, hk, ?_, ?_⟩
  · rw [hk]; decide
  · rw [hk]; decide

/-- C8 (counterexample): the artifact written by `write_results_to_log`
has no `source` (nor `destination`) key, so it does not conform to the
claimed schema. -/
theorem c8_counterexample :
    "source" ∉ jsonKeys (resultsJson ⟨[], [], [], 0⟩) ∧
      "destination" ∉ jsonKeys (resultsJson ⟨[], [], [], 0⟩) := by
  constructor <;> decide

/-- The report of a hypothetical prior run, used to show that re-running
the sync pays no attention to any ledger: `sync_directory` has no
`restart_from` parameter at all. -/
def priorLedgerC3 : Report := ⟨["/z/d/a", "/z/d/b"], [], [], 11⟩

/-- C3 (counterexample): `/z/d/a` is recorded as succeeded in the prior
run's ledger, yet re-running the sync performs the verification fetch of
`/z/d/a` again — the claim that restart "never re-verifies" such a file
fails because no restart mechanism exists in the code. -/
theorem c3_counterexample :
    "/z/d/a" ∈ priorLedgerC3.succeeded ∧
      ROp.getObj "/z/d/a" ∈
        (syncTree "size" false false (fun _ => PutOutcome.faithful) "/s"
          (FTree.node "d" [⟨"a", 5, 0⟩, ⟨"b", 6, 0⟩] []) "/z"
          ⟨["/z/d"],
            [("/z/d/a", ⟨5, 0, false⟩), ("/z/d/b", ⟨6, 0, false⟩)]⟩).2.2 := by
  constructor <;> decide

/-- C4 (counterexample): one file, first run's `put` fails (`failed` holds
the file), remote store unchanged between runs; the second run re-attempts
and succeeds, so its report has a non-empty `succeeded` list and the file
is not in `skipped` — refuting unconditional idempotence. -/
theorem c4_counterexample :
    (syncTree "size" false false (fun _ => PutOutcome.fail) "/s"
        (FTree.node "d" [⟨"a", 5, 7⟩] []) "/z" ⟨[], []⟩).1
      = .ok ⟨[], [], ["/s/a"], 0⟩ ∧
      (syncTree "size" false false (fun _ => PutOutcome.faithful) "/s"
        (FTree.node "d" [⟨"a", 5, 7⟩] []) "/z"
        (syncTree "size" false false (fun _ => PutOutcome.fail) "/s"
          (FTree.node "d" [⟨"a", 5, 7⟩] []) "/z" ⟨[], []⟩).2.1).1
      = .ok ⟨["/z/d/a"], [], [], 5⟩ := by
  constructor <;> decide

theorem wfTree_node (n : String) (fs : List FileNode) (subs : List FTree)
    (h : wfTree (.node n fs subs) = true) :
    nameOk n = true ∧ (∀ f ∈ fs, nameOk f.name = true) ∧
      (fs.map (fun f => f.name) ++ subs.map FTree.name).Nodup ∧
      wfForest subs = true := by
  unfold wfTree at h
  simp only [Bool.and_eq_true, List.all_eq_true, decide_eq_true_eq] at h
  exact ⟨h.1.1.1, fun f hf => h.1.1.2 f hf, h.1.2, h.2⟩

theorem wfForest_mem (l : List FTree) (h : wfForest l = true) :
    ∀ d ∈ l, wfTree d = true := by
  induction l with
  | nil => intro d hd; simp at hd
  | cons t r ih =>
    unfold wfForest at h
    simp only [Bool.and_eq_true] at h
    intro d hd
    rcases List.mem_cons.mp hd with h1 | h1
    · rw [h1]; exact h.1
    · exact ih h.2 d h1

theorem entriesTree_node (src destination n : String) (fs : List FileNode)
    (subs : List FTree) :
    entriesTree src destination (.node n fs subs)
      = fs.map (fun f =>
          (f, src ++ "/" ++ f.name,
            destination ++ "/" ++ n ++ "/" ++ f.name))
        ++ entriesForest src (destination ++ "/" ++ n) subs := by
  rfl

theorem entriesForest_nil (src collection : String) :
    entriesForest src collection [] = [] := rfl

theorem entriesForest_cons (src collection : String) (d : FTree)
    (rest : List FTree) :
    entriesForest src collection (d :: rest)
      = entriesTree (src ++ "/" ++ d.name) collection d
        ++ entriesForest src collection rest := rfl

theorem collsTree_node (destination n : String) (fs : List FileNode)
    (subs : List FTree) :
    collsTree destination (.node n fs subs)
      = (destination ++ "/" ++ n)
        :: collsForest (destination ++ "/" ++ n) subs := rfl

theorem collsForest_nil (collection : String) :
    collsForest collection [] = [] := rfl

theorem collsForest_cons (collection : String) (d : FTree)
    (rest : List FTree) :
    collsForest collection (d :: rest)
      = collsTree collection d ++ collsForest collection rest := rfl

theorem entriesForest_mem {src collection : String} {l : List FTree}
    {e : FileNode × String × String}
    (h : e ∈ entriesForest src collection l) :
    ∃ d ∈ l, e ∈ entriesTree (src ++ "/" ++ d.name) collection d := by
  induction l with
  | nil => rw [entriesForest_nil] at h; simp at h
  | cons d rest ih =>
    rw [entriesForest_cons] at h
    rcases List.mem_append.mp h with h1 | h1
    · exact ⟨d, List.mem_cons_self d rest, h1⟩
    · obtain ⟨d', hd', he⟩ := ih h1
      exact ⟨d', List.mem_cons_of_mem d hd', he⟩

mutual

theorem entriesTree_rp_under (t : FTree) :
    ∀ src destination e, e ∈ entriesTree src destination t →
      ∃ w, e.2.2 = destination ++ "/" ++ t.name ++ "/" ++ w := by
  intro src destination e he
  obtain ⟨n, fs, subs⟩ := t
  rw [entriesTree_node] at he
  rcases List.mem_append.mp he with h1 | h1
  · obtain ⟨f, hf, hfe⟩ := List.mem_map.mp h1
    refine ⟨f.name, ?_⟩
    rw [← hfe]
    rfl
  · obtain ⟨d, w, hd, hw⟩ :=
      entriesForest_rp_under subs src (destination ++ "/" ++ n) e h1
    refine ⟨d.name ++ "/" ++ w, ?_⟩
    rw [hw]
    exact path_assoc (destination ++ "/" ++ n) d.name w

theorem entriesForest_rp_under (l : List FTree) :
    ∀ src collection e, e ∈ entriesForest src collection l →
      ∃ d w, d ∈ l ∧ e.2.2 = collection ++ "/" ++ d.name ++ "/" ++ w := by
  intro src collection e he
  cases l with
  | nil => rw [entriesForest_nil] at he; simp at he
  | cons d rest =>
    rw [entriesForest_cons] at he
    rcases List.mem_append.mp he with h1 | h1
    · obtain ⟨w, hw⟩ :=
        entriesTree_rp_under d (src ++ "/" ++ d.name) collection e h1
      exact ⟨d, w, List.mem_cons_self d rest, hw⟩
    · obtain ⟨d', w, hd', hw⟩ :=
        entriesForest_rp_under rest src collection e h1
      exact ⟨d', w, List.mem_cons_of_mem d hd', hw⟩

end

mutual

theorem entriesTree_lp_under (t : FTree) :
    ∀ src destination e, e ∈ entriesTree src destination t →
      ∃ z, e.2.1 = src ++ "/" ++ z := by
  intro src destination e he
  obtain ⟨n, fs, subs⟩ := t
  rw [entriesTree_node] at he
  rcases List.mem_append.mp he with h1 | h1
  · obtain ⟨f, hf, hfe⟩ := List.mem_map.mp h1
    refine ⟨f.name, ?_⟩
    rw [← hfe]
  · obtain ⟨d, z, hd, hz⟩ :=
      entriesForest_lp_under subs src (destination ++ "/" ++ n) e h1
    refine ⟨d.name ++ "/" ++ z, ?_⟩
    rw [hz]
    exact path_assoc src d.name z

theorem entriesForest_lp_under (l : List FTree) :
    ∀ src collection e, e ∈ entriesForest src collection l →
      ∃ d z, d ∈ l ∧ e.2.1 = src ++ "/" ++ d.name ++ "/" ++ z := by
  intro src collection e he
  cases l with
  | nil => rw [entriesForest_nil] at he; simp at he
  | cons d rest =>
    rw [entriesForest_cons] at he
    rcases List.mem_append.mp he with h1 | h1
    · obtain ⟨z, hz⟩ :=
        entriesTree_lp_under d (src ++ "/" ++ d.name) collection e h1
      exact ⟨d, z, List.mem_cons_self d rest, hz⟩
    · obtain ⟨d', z, hd', hz⟩ :=
        entriesForest_lp_under rest src collection e h1
      exact ⟨d', z, List.mem_cons_of_mem d hd', hz⟩

end

mutual

theorem collsTree_mem (t : FTree) :
    ∀ destination q, q ∈ collsTree destination t →
      q = destination ++ "/" ++ t.name
        ∨ ∃ w, q = destination ++ "/" ++ t.name ++ "/" ++ w := by
  intro destination q hq
  obtain ⟨n, fs, subs⟩ := t
  rw [collsTree_node] at hq
  rcases List.mem_cons.mp hq with h1 | h1
  · exact Or.inl h1
  · obtain ⟨d, hd, hcase⟩ :=
      collsForest_mem subs (destination ++ "/" ++ n) q h1
    rcases hcase with h2 | ⟨w, h2⟩
    · exact Or.inr ⟨d.name, h2⟩
    · refine Or.inr ⟨d.name ++ "/" ++ w, ?_⟩
      rw [h2]
      exact path_assoc (destination ++ "/" ++ n) d.name w

theorem collsForest_mem (l : List FTree) :
    ∀ collection q, q ∈ collsForest collection l →
      ∃ d, d ∈ l ∧ (q = collection ++ "/" ++ d.name
        ∨ ∃ w, q = collection ++ "/" ++ d.name ++ "/" ++ w) := by
  intro collection q hq
  cases l with
  | nil => rw [collsForest_nil] at hq; simp at hq
  | cons d rest =>
    rw [collsForest_cons] at hq
    rcases List.mem_append.mp hq with h1 | h1
    · obtain h2 := collsTree_mem d collection q h1
      exact ⟨d, List.mem_cons_self d rest, h2⟩
    · obtain ⟨d', hd', h2⟩ := collsForest_mem rest collection q h1
      exact ⟨d', List.mem_cons_of_mem d hd', h2⟩

end

/-! ### Trace bookkeeping -/

/-- No collection-level operation occurs in the trace fragment. -/
def noCollOps (l : List ROp) : Bool :=
  l.all (fun op => match op with
    | ROp.getColl _ => false
    | ROp.createColl _ => false
    | _ => true)

theorem noCollOps_append (l1 l2 : List ROp) :
    noCollOps (l1 ++ l2) = (noCollOps l1 && noCollOps l2) := by
  simp [noCollOps]

theorem getColls_append (l1 l2 : List ROp) :
    getColls (l1 ++ l2) = getColls l1 ++ getColls l2 := by
  induction l1 with
  | nil => rfl
  | cons op r ih => cases op <;> simp [getColls, ih]

theorem noCollOps_cons (op : ROp) (r : List ROp)
    (h : noCollOps (op :: r) = true) :
    noCollOps r = true ∧ (∀ p, op ≠ ROp.getColl p) ∧
      (∀ p, op ≠ ROp.createColl p) := by
  unfold noCollOps at h
  simp only [List.all_cons, Bool.and_eq_true] at h
  refine ⟨h.2, ?_, ?_⟩ <;> intro p hp <;> rw [hp] at h <;>
    exact absurd h.1 (by simp)

theorem getColls_of_noCollOps (l : List ROp) (h : noCollOps l = true) :
    getColls l = [] := by
  induction l with
  | nil => rfl
  | cons op r ih =>
    obtain ⟨hr, hg, hc⟩ := noCollOps_cons op r h
    cases op with
    | getColl p => exact absurd rfl (hg p)
    | createColl p => exact absurd rfl (hc p)
    | getObj p => exact ih hr
    | chksumOp p => exact ih hr
    | localHash p => exact ih hr
    | putOp a b => exact ih hr
    | addMeta p => exact ih hr

theorem collsAfter_append (cs : List String) (l1 l2 : List ROp) :
    collsAfter cs (l1 ++ l2) = collsAfter (collsAfter cs l1) l2 := by
  induction l1 generalizing cs with
  | nil => rfl
  | cons op r ih => cases op <;> simp [collsAfter, ih]

theorem collsAfter_of_noCollOps (cs : List String) (l : List ROp)
    (h : noCollOps l = true) : collsAfter cs l = cs := by
  induction l with
  | nil => rfl
  | cons op r ih =>
    obtain ⟨hr, hg, hc⟩ := noCollOps_cons op r h
    cases op with
    | getColl p => exact absurd rfl (hg p)
    | createColl p => exact absurd rfl (hc p)
    | getObj p => exact ih hr
    | chksumOp p => exact ih hr
    | localHash p => exact ih hr
    | putOp a b => exact ih hr
    | addMeta p => exact ih hr

theorem createsFresh_of_noCollOps (cs : List String) (l : List ROp)
    (h : noCollOps l = true) : createsFresh cs l = true := by
  induction l generalizing cs with
  | nil => rfl
  | cons op r ih =>
    obtain ⟨hr, hg, hc⟩ := noCollOps_cons op r h
    cases op with
    | getColl p => exact absurd rfl (hg p)
    | createColl p => exact absurd rfl (hc p)
    | getObj p => exact ih cs hr
    | chksumOp p => exact ih cs hr
    | localHash p => exact ih cs hr
    | putOp a b => exact ih cs hr
    | addMeta p => exact ih cs hr

theorem createsFresh_append (cs : List String) (l1 l2 : List ROp)
    (h1 : createsFresh cs l1 = true)
    (h2 : createsFresh (collsAfter cs l1) l2 = true) :
    createsFresh cs (l1 ++ l2) = true := by
  induction l1 generalizing cs with
  | nil => exact h2
  | cons op r ih =>
    cases op with
    | createColl p =>
      unfold createsFresh at h1
      simp only [Bool.and_eq_true] at h1
      unfold collsAfter at h2
      simp only [List.cons_append]
      unfold createsFresh
      rw [h1.1]
      simp only [Bool.true_and]
      exact ih (p :: cs) h1.2 h2
    | getColl p =>
      simp only [List.cons_append]
      unfold createsFresh at h1 ⊢
      unfold collsAfter at h2
      exact ih cs h1 h2
    | getObj p =>
      simp only [List.cons_append]
      unfold createsFresh at h1 ⊢
      unfold collsAfter at h2
      exact ih cs h1 h2
    | chksumOp p =>
      simp only [List.cons_append]
      unfold createsFresh at h1 ⊢
      unfold collsAfter at h2
      exact ih cs h1 h2
    | localHash p =>
      simp only [List.cons_append]
      unfold createsFresh at h1 ⊢
      unfold collsAfter at h2
      exact ih cs h1 h2
    | putOp a b =>
      simp only [List.cons_append]
      unfold createsFresh at h1 ⊢
      unfold collsAfter at h2
      exact ih cs h1 h2
    | addMeta p =>
      simp only [List.cons_append]
      unfold createsFresh at h1 ⊢
      unfold collsAfter at h2
      exact ih cs h1 h2

theorem compare_filesize_trace (st : Store) (f : FileNode) (dst : String) :
    (compare_filesize st f dst).2 = [ROp.getObj dst] := by
  unfold compare_filesize
  cases lookupObj st dst <;> rfl

theorem compare_checksums_noColl (st : Store) (f : FileNode) (dst : String) :
    noCollOps (compare_checksums st f dst).2 = true := by
  unfold compare_checksums
  cases lookupObj st dst with
  | none => rfl
  | some o =>
    dsimp only
    by_cases h1 : (o.size != f.size) = true
    · simp only [h1, if_true]
      rfl
    · rw [if_neg (by simp [h1])]
      by_cases h2 : o.locked = true
      · simp only [h2, if_true]
        rfl
      · rw [if_neg (by simp [h2])]
        rfl

theorem compare_checksums_getObj (st : Store) (f : FileNode) (dst : String) :
    ROp.getObj dst ∈ (compare_checksums st f dst).2 := by
  unfold compare_checksums
  cases lookupObj st dst with
  | none => simp
  | some o =>
    dsimp only
    by_cases h1 : (o.size != f.size) = true
    · simp [h1]
    · rw [if_neg (by simp [h1])]
      by_cases h2 : o.locked = true
      · simp [h2]
      · rw [if_neg (by simp [h2])]
        simp

theorem putObj_colls (st : Store) (p : String) (o : RObj) :
    (putObj st p o).colls = st.colls := rfl

theorem upload_file_noColl (putOut : String → PutOutcome) (st : Store)
    (f : FileNode) (lp dst : String) (post : Bool) :
    noCollOps (upload_file putOut st f lp dst post).2.2 = true := by
  unfold upload_file
  cases putOut dst with
  | fail => rfl
  | faithful =>
    cases post with
    | false => rfl
    | true =>
      simp only [if_true]
      have := compare_checksums_noColl (putObj st dst ⟨f.size, f.content, false⟩) f dst
      simp [noCollOps] at this ⊢
      exact this
  | corrupted sz ct =>
    cases post with
    | false => rfl
    | true =>
      simp only [if_true]
      have := compare_checksums_noColl (putObj st dst ⟨sz, ct, false⟩) f dst
      simp [noCollOps] at this ⊢
      exact this

theorem upload_file_colls (putOut : String → PutOutcome) (st : Store)
    (f : FileNode) (lp dst : String) (post : Bool) :
    (upload_file putOut st f lp dst post).2.1.colls = st.colls := by
  unfold upload_file
  cases putOut dst with
  | fail => rfl
  | faithful => cases post <;> rfl
  | corrupted sz ct => cases post <;> rfl

theorem upload_file_frame (putOut : String → PutOutcome) (st : Store)
    (f : FileNode) (lp dst : String) (post : Bool) (p : String)
    (hp : p ≠ dst) :
    lookupObj (upload_file putOut st f lp dst post).2.1 p
      = lookupObj st p := by
  unfold upload_file
  cases putOut dst with
  | fail => rfl
  | faithful =>
    cases post <;> simp only [if_true, if_false] <;>
      exact lookupObj_putObj_other st dst p ⟨f.size, f.content, false⟩ hp
  | corrupted sz ct =>
    cases post <;> simp only [if_true, if_false] <;>
      exact lookupObj_putObj_other st dst p ⟨sz, ct, false⟩ hp

/-- Everything the per-file loop guarantees on a run with a recognized
verification method: it never aborts, every recorded path comes from one
of the loop's files (remote path for succeeded/skipped, local path for
failed), every file's data object is fetched for verification, the trace
holds no collection operations, the store's collections are untouched and
only the loop's own data-object paths are written. -/
theorem syncFiles_run (vm : String) (post doMeta : Bool)
    (putOut : String → PutOutcome) (src collection : String)
    (hvm : vm = "size" ∨ vm = "checksum") :
    ∀ (fs : List FileNode) (st : Store), ∃ r st2 ops,
      syncFiles vm post doMeta putOut src collection fs st
          = (.ok r, st2, ops) ∧
        (∀ x ∈ r.succeeded, ∃ f, f ∈ fs ∧
          x = collection ++ "/" ++ f.name) ∧
        (∀ x ∈ r.skipped, ∃ f, f ∈ fs ∧
          x = collection ++ "/" ++ f.name) ∧
        (∀ x ∈ r.failed, ∃ f, f ∈ fs ∧ x = src ++ "/" ++ f.name) ∧
        (∀ f ∈ fs, ROp.getObj (collection ++ "/" ++ f.name) ∈ ops) ∧
        noCollOps ops = true ∧
        st2.colls = st.colls ∧
        (∀ p, (∀ f ∈ fs, p ≠ collection ++ "/" ++ f.name) →
          lookupObj st2 p = lookupObj st p) := by
  intro fs
  induction fs with
  | nil =>
    intro st
    exact ⟨emptyReport, st, [], rfl, by simp [emptyReport],
      by simp [emptyReport], by simp [emptyReport], by simp, rfl, rfl,
      fun p hp => rfl⟩
  | cons f rest ih =>
    intro st
    have hvfacts : ∃ m vops,
        verify vm st f (collection ++ "/" ++ f.name) = some (m, vops) ∧
          ROp.getObj (collection ++ "/" ++ f.name) ∈ vops ∧
          noCollOps vops = true := by
      rcases hvm with h | h
      · refine ⟨(compare_filesize st f (collection ++ "/" ++ f.name)).1,
          (compare_filesize st f (collection ++ "/" ++ f.name)).2,
          by rw [h]; rfl, ?_, ?_⟩
        · rw [compare_filesize_trace]
          exact List.mem_singleton.mpr rfl
        · rw [compare_filesize_trace]
          rfl
      · refine ⟨(compare_checksums st f (collection ++ "/" ++ f.name)).1,
          (compare_checksums st f (collection ++ "/" ++ f.name)).2,
          by rw [h]; rfl, ?_, ?_⟩
        · exact compare_checksums_getObj st f (collection ++ "/" ++ f.name)
        · exact compare_checksums_noColl st f (collection ++ "/" ++ f.name)
    obtain ⟨m, vops, hv, hvmem, hvnc⟩ := hvfacts
    simp only [syncFiles]
    rw [hv]
    dsimp only
    cases m with
    | true =>
      obtain ⟨r', st2', ops', hrest, hS, hK, hF, hG, hN, hC, hFr⟩ := ih st
      rw [hrest]
      dsimp only
      refine ⟨_, _, _, rfl, ?_, ?_, ?_, ?_, ?_, ?_, ?_⟩
      · intro x hx
        obtain ⟨f', hf', he⟩ := hS x hx
        exact ⟨f', List.mem_cons_of_mem f hf', he⟩
      · intro x hx
        rcases List.mem_cons.mp hx with h1 | h1
        · exact ⟨f, List.mem_cons_self f rest, h1⟩
        · obtain ⟨f', hf', he⟩ := hK x h1
          exact ⟨f', List.mem_cons_of_mem f hf', he⟩
      · intro x hx
        obtain ⟨f', hf', he⟩ := hF x hx
        exact ⟨f', List.mem_cons_of_mem f hf', he⟩
      · intro g hg
        rcases List.mem_cons.mp hg with h1 | h1
        · rw [h1]
          exact List.mem_append_left ops' hvmem
        · exact List.mem_append_right vops (hG g h1)
      · rw [noCollOps_append, hvnc, hN]
        rfl
      · exact hC
      · intro p hp
        exact hFr p (fun f' hf' => hp f' (List.mem_cons_of_mem f hf'))
    | false =>
      rcases hu : upload_file putOut st f (src ++ "/" ++ f.name)
          (collection ++ "/" ++ f.name) post with ⟨succ, st1, uops⟩
      have huColl : st1.colls = st.colls := by
        have h0 := upload_file_colls putOut st f (src ++ "/" ++ f.name)
          (collection ++ "/" ++ f.name) post
        rw [hu] at h0
        exact h0
      have huNC : noCollOps uops = true := by
        have h0 := upload_file_noColl putOut st f (src ++ "/" ++ f.name)
          (collection ++ "/" ++ f.name) post
        rw [hu] at h0
        exact h0
      have huFrame : ∀ p, p ≠ collection ++ "/" ++ f.name →
          lookupObj st1 p = lookupObj st p := by
        intro p hp
        have h0 := upload_file_frame putOut st f (src ++ "/" ++ f.name)
          (collection ++ "/" ++ f.name) post p hp
        rw [hu] at h0
        exact h0
      rw [if_neg Bool.false_ne_true]
      cases succ with
      | true =>
        obtain ⟨r', st2', ops', hrest, hS, hK, hF, hG, hN, hC, hFr⟩ := ih st1
        dsimp only
        rw [hrest]
        dsimp only
        refine ⟨_, _, _, rfl, ?_, ?_, ?_, ?_, ?_, ?_, ?_⟩
        · intro x hx
          rcases List.mem_cons.mp hx with h1 | h1
          · exact ⟨f, List.mem_cons_self f rest, h1⟩
          · obtain ⟨f', hf', he⟩ := hS x h1
            exact ⟨f', List.mem_cons_of_mem f hf', he⟩
        · intro x hx
          obtain ⟨f', hf', he⟩ := hK x hx
          exact ⟨f', List.mem_cons_of_mem f hf', he⟩
        · intro x hx
          obtain ⟨f', hf', he⟩ := hF x hx
          exact ⟨f', List.mem_cons_of_mem f hf', he⟩
        · intro g hg
          rcases List.mem_cons.mp hg with h1 | h1
          · rw [h1]
            exact List.mem_append_left _ (List.mem_append_left _
              (List.mem_append_left _ hvmem))
          · exact List.mem_append_right _ (hG g h1)
        · rw [noCollOps_append, noCollOps_append, noCollOps_append,
            hvnc, huNC, hN]
          have hm : noCollOps
              (ROp.getObj (collection ++ "/" ++ f.name)
                :: (if doMeta then
                  [ROp.getObj (collection ++ "/" ++ f.name),
                    ROp.addMeta (collection ++ "/" ++ f.name)]
                  else [])) = true := by
            cases doMeta <;> rfl
          rw [hm]
          rfl
        · rw [hC, huColl]
        · intro p hp
          rw [hFr p (fun f' hf' => hp f' (List.mem_cons_of_mem f hf'))]
          exact huFrame p (hp f (List.mem_cons_self f rest))
      | false =>
        obtain ⟨r', st2', ops', hrest, hS, hK, hF, hG, hN, hC, hFr⟩ := ih st1
        dsimp only
        rw [hrest]
        dsimp only
        refine ⟨_, _, _, rfl, ?_, ?_, ?_, ?_, ?_, ?_, ?_⟩
        · intro x hx
          obtain ⟨f', hf', he⟩ := hS x hx
          exact ⟨f', List.mem_cons_of_mem f hf', he⟩
        · intro x hx
          obtain ⟨f', hf', he⟩ := hK x hx
          exact ⟨f', List.mem_cons_of_mem f hf', he⟩
        · intro x hx
          rcases List.mem_cons.mp hx with h1 | h1
          · exact ⟨f, List.mem_cons_self f rest, h1⟩
          · obtain ⟨f', hf', he⟩ := hF x h1
            exact ⟨f', List.mem_cons_of_mem f hf', he⟩
        · intro g hg
          rcases List.mem_cons.mp hg with h1 | h1
          · rw [h1]
            exact List.mem_append_left _ (List.mem_append_left _ hvmem)
          · exact List.mem_append_right _ (hG g h1)
        · rw [noCollOps_append, noCollOps_append, hvnc, huNC, hN]
          rfl
        · rw [hC, huColl]
        · intro p hp
          rw [hFr p (fun f' hf' => hp f' (List.mem_cons_of_mem f hf'))]
          exact huFrame p (hp f (List.mem_cons_self f rest))

theorem lookupObj_eq_of_objs (st st' : Store) (h : st'.objs = st.objs)
    (p : String) : lookupObj st' p = lookupObj st p := by
  unfold lookupObj
  rw [h]

theorem collsAfter_sub (cs : List String) (l : List ROp) :
    ∀ a ∈ cs, a ∈ collsAfter cs l := by
  induction l generalizing cs with
  | nil => intro a ha; exact ha
  | cons op r ih =>
    intro a ha
    cases op with
    | createColl p => exact ih (p :: cs) a (List.mem_cons_of_mem p ha)
    | getColl p => exact ih cs a ha
    | getObj p => exact ih cs a ha
    | chksumOp p => exact ih cs a ha
    | localHash p => exact ih cs a ha
    | putOp x y => exact ih cs a ha
    | addMeta p => exact ih cs a ha

theorem ensureColl_spec (st : Store) (p : String) :
    (ensureColl st p).1.objs = st.objs ∧
      getColls (ensureColl st p).2 = [p] ∧
      createsFresh st.colls (ensureColl st p).2 = true ∧
      (ensureColl st p).1.colls = collsAfter st.colls (ensureColl st p).2 ∧
      p ∈ (ensureColl st p).1.colls := by
  unfold ensureColl
  by_cases h : p ∈ st.colls
  · rw [if_pos h]
    exact ⟨rfl, rfl, rfl, rfl, h⟩
  · rw [if_neg h]
    refine ⟨rfl, rfl, ?_, rfl, List.mem_cons_self p st.colls⟩
    have hcf : st.colls.contains p = false := by
      rcases hc : st.colls.contains p with _ | _
      · rfl
      · exact absurd (List.elem_iff.mp hc) h
    show (!st.colls.contains p && true) = true
    rw [hcf]
    rfl

mutual

/-- Master run lemma for `sync_directory` with a recognized verification
method: the call returns normally; every succeeded/skipped string is the
data-object path of a discovered file and every failed string its local
path; every discovered file's data object is fetched for verification;
the collection existence checks are exactly the preorder collection list;
the collection-creation discipline is fresh-only; the final collection
set is the trace replay; only discovered data-object paths are written;
and every addressed collection exists afterwards. -/
theorem syncTree_run (vm : String) (post doMeta : Bool)
    (putOut : String → PutOutcome) (hvm : vm = "size" ∨ vm = "checksum")
    (t : FTree) :
    ∀ src destination st, ∃ r st2 ops,
      syncTree vm post doMeta putOut src t destination st
          = (.ok r, st2, ops) ∧
        (∀ x ∈ r.succeeded ++ r.skipped,
          ∃ e, e ∈ entriesTree src destination t ∧ x = e.2.2) ∧
        (∀ x ∈ r.failed,
          ∃ e, e ∈ entriesTree src destination t ∧ x = e.2.1) ∧
        (∀ e ∈ entriesTree src destination t, ROp.getObj e.2.2 ∈ ops) ∧
        getColls ops = collsTree destination t ∧
        createsFresh st.colls ops = true ∧
        st2.colls = collsAfter st.colls ops ∧
        (∀ p, (∀ e ∈ entriesTree src destination t, p ≠ e.2.2) →
          lookupObj st2 p = lookupObj st p) ∧
        (∀ c ∈ collsTree destination t, c ∈ st2.colls) := by
  intro src destination st
  obtain ⟨n, fs, subs⟩ := t
  obtain ⟨hEobjs, hEget, hEfresh, hEca, hEmem⟩ :=
    ensureColl_spec st (destination ++ "/" ++ n)
  obtain ⟨rf, stf, opsf, hfs, hS, hK, hF, hG, hN, hCo, hFr⟩ :=
    syncFiles_run vm post doMeta putOut src (destination ++ "/" ++ n) hvm
      fs (ensureColl st (destination ++ "/" ++ n)).1
  obtain ⟨rs, sts, opss, hss, sSK, sF, sG, sGC, sFresh, sCA, sFr, sCm⟩ :=
    syncSubs_run vm post doMeta putOut hvm subs src
      (destination ++ "/" ++ n) stf
  have heq : syncTree vm post doMeta putOut src (.node n fs subs)
      destination st
      = (.ok (mergeReport rf rs), sts,
        (ensureColl st (destination ++ "/" ++ n)).2 ++ opsf ++ opss) := by
    simp only [syncTree]
    rw [hfs]
    dsimp only
    rw [hss]
  refine ⟨mergeReport rf rs, sts,
    (ensureColl st (destination ++ "/" ++ n)).2 ++ opsf ++ opss, heq,
    ?_, ?_, ?_, ?_, ?_, ?_, ?_, ?_⟩
  · intro x hx
    rw [entriesTree_node]
    have hx4 : x ∈ rf.succeeded ++ rs.succeeded
        ++ (rf.skipped ++ rs.skipped) := by
      simpa [mergeReport] using hx
    have hown : (∃ f, f ∈ fs ∧ x = destination ++ "/" ++ n ++ "/" ++ f.name)
        → ∃ e, e ∈ (fs.map (fun f => (f, src ++ "/" ++ f.name,
            destination ++ "/" ++ n ++ "/" ++ f.name))
          ++ entriesForest src (destination ++ "/" ++ n) subs)
          ∧ x = e.2.2 := by
      rintro ⟨f, hf, hxe⟩
      exact ⟨(f, src ++ "/" ++ f.name,
        destination ++ "/" ++ n ++ "/" ++ f.name),
        List.mem_append_left _ (List.mem_map_of_mem _ hf), hxe⟩
    have hsub : (∃ e, e ∈ entriesForest src (destination ++ "/" ++ n) subs
        ∧ x = e.2.2)
        → ∃ e, e ∈ (fs.map (fun f => (f, src ++ "/" ++ f.name,
            destination ++ "/" ++ n ++ "/" ++ f.name))
          ++ entriesForest src (destination ++ "/" ++ n) subs)
          ∧ x = e.2.2 := by
      rintro ⟨e, he, hxe⟩
      exact ⟨e, List.mem_append_right _ he, hxe⟩
    rcases List.mem_append.mp hx4 with h1 | h1
    · rcases List.mem_append.mp h1 with h2 | h2
      · exact hown (hS x h2)
      · exact hsub (sSK x (List.mem_append_left _ h2))
    · rcases List.mem_append.mp h1 with h2 | h2
      · exact hown (hK x h2)
      · exact hsub (sSK x (List.mem_append_right _ h2))
  · intro x hx
    rw [entriesTree_node]
    have hx2 : x ∈ rf.failed ++ rs.failed := by
      simpa [mergeReport] using hx
    rcases List.mem_append.mp hx2 with h1 | h1
    · obtain ⟨f, hf, hxe⟩ := hF x h1
      exact ⟨(f, src ++ "/" ++ f.name,
        destination ++ "/" ++ n ++ "/" ++ f.name),
        List.mem_append_left _ (List.mem_map_of_mem _ hf), hxe⟩
    · obtain ⟨e, he, hxe⟩ := sF x h1
      exact ⟨e, List.mem_append_right _ he, hxe⟩
  · intro e he
    rw [entriesTree_node] at he
    rcases List.mem_append.mp he with h1 | h1
    · obtain ⟨f, hf, hfe⟩ := List.mem_map.mp h1
      have : ROp.getObj (destination ++ "/" ++ n ++ "/" ++ f.name) ∈ opsf :=
        hG f hf
      rw [← hfe]
      exact List.mem_append_left _ (List.mem_append_right _ this)
    · exact List.mem_append_right _ (sG e h1)
  · rw [getColls_append, getColls_append, hEget,
      getColls_of_noCollOps opsf hN, sGC, collsTree_node]
    rfl
  · rw [List.append_assoc]
    refine createsFresh_append st.colls _ (opsf ++ opss) hEfresh ?_
    rw [← hEca]
    refine createsFresh_append _ opsf opss
      (createsFresh_of_noCollOps _ opsf hN) ?_
    rw [collsAfter_of_noCollOps _ opsf hN, ← hCo]
    exact sFresh
  · rw [sCA, collsAfter_append, collsAfter_append, ← hEca,
      collsAfter_of_noCollOps _ opsf hN, hCo]
  · intro p hp
    rw [entriesTree_node] at hp
    have hp1 : ∀ e ∈ entriesForest src (destination ++ "/" ++ n) subs,
        p ≠ e.2.2 :=
      fun e he => hp e (List.mem_append_right _ he)
    have hp2 : ∀ f ∈ fs, p ≠ destination ++ "/" ++ n ++ "/" ++ f.name :=
      fun f hf => hp (f, src ++ "/" ++ f.name,
        destination ++ "/" ++ n ++ "/" ++ f.name)
        (List.mem_append_left _ (List.mem_map_of_mem _ hf))
    rw [sFr p hp1, hFr p hp2]
    exact lookupObj_eq_of_objs st _ hEobjs p
  · intro c hc
    rw [collsTree_node] at hc
    rcases List.mem_cons.mp hc with h1 | h1
    · rw [h1]
      have h2 : destination ++ "/" ++ n ∈ stf.colls := by
        rw [hCo]
        exact hEmem
      rw [sCA]
      exact collsAfter_sub stf.colls opss _ h2
    · exact sCm c h1

/-- Forest counterpart of `syncTree_run` for the subdirectory loop. -/
theorem syncSubs_run (vm : String) (post doMeta : Bool)
    (putOut : String → PutOutcome) (hvm : vm = "size" ∨ vm = "checksum")
    (l : List FTree) :
    ∀ src collection st, ∃ r st2 ops,
      syncSubs vm post doMeta putOut src collection l st
          = (.ok r, st2, ops) ∧
        (∀ x ∈ r.succeeded ++ r.skipped,
          ∃ e, e ∈ entriesForest src collection l ∧ x = e.2.2) ∧
        (∀ x ∈ r.failed,
          ∃ e, e ∈ entriesForest src collection l ∧ x = e.2.1) ∧
        (∀ e ∈ entriesForest src collection l, ROp.getObj e.2.2 ∈ ops) ∧
        getColls ops = collsForest collection l ∧
        createsFresh st.colls ops = true ∧
        st2.colls = collsAfter st.colls ops ∧
        (∀ p, (∀ e ∈ entriesForest src collection l, p ≠ e.2.2) →
          lookupObj st2 p = lookupObj st p) ∧
        (∀ c ∈ collsForest collection l, c ∈ st2.colls) := by
  intro src collection st
  cases l with
  | nil =>
    refine ⟨emptyReport, st, [], rfl, ?_, ?_, ?_, rfl, rfl, rfl, ?_, ?_⟩
    · intro x hx
      simp [emptyReport] at hx
    · intro x hx
      simp [emptyReport] at hx
    · intro e he
      rw [entriesForest_nil] at he
      simp at he
    · intro p hp
      rfl
    · intro c hc
      rw [collsForest_nil] at hc
      simp at hc
  | cons d rest =>
    obtain ⟨rd, std, opsd, hd, dSK, dF, dG, dGC, dFresh, dCA, dFr, dCm⟩ :=
      syncTree_run vm post doMeta putOut hvm d (src ++ "/" ++ d.name)
        collection st
    obtain ⟨rr, str, opsr, hr, rSK, rF, rG, rGC, rFresh, rCA, rFr, rCm⟩ :=
      syncSubs_run vm post doMeta putOut hvm rest src collection std
    have heq : syncSubs vm post doMeta putOut src collection (d :: rest) st
        = (.ok (mergeReport rd rr), str, opsd ++ opsr) := by
      simp only [syncSubs]
      rw [hd]
      dsimp only
      rw [hr]
    refine ⟨mergeReport rd rr, str, opsd ++ opsr, heq,
      ?_, ?_, ?_, ?_, ?_, ?_, ?_, ?_⟩
    · intro x hx
      rw [entriesForest_cons]
      have hx4 : x ∈ rd.succeeded ++ rr.succeeded
          ++ (rd.skipped ++ rr.skipped) := by
        simpa [mergeReport] using hx
      have hcase : (∃ e, e ∈ entriesTree (src ++ "/" ++ d.name) collection d
            ∧ x = e.2.2)
          ∨ (∃ e, e ∈ entriesForest src collection rest ∧ x = e.2.2)
          → ∃ e, e ∈ (entriesTree (src ++ "/" ++ d.name) collection d
            ++ entriesForest src collection rest) ∧ x = e.2.2 := by
        rintro (⟨e, he, hxe⟩ | ⟨e, he, hxe⟩)
        · exact ⟨e, List.mem_append_left _ he, hxe⟩
        · exact ⟨e, List.mem_append_right _ he, hxe⟩
      rcases List.mem_append.mp hx4 with h1 | h1
      · rcases List.mem_append.mp h1 with h2 | h2
        · exact hcase (Or.inl (dSK x (List.mem_append_left _ h2)))
        · exact hcase (Or.inr (rSK x (List.mem_append_left _ h2)))
      · rcases List.mem_append.mp h1 with h2 | h2
        · exact hcase (Or.inl (dSK x (List.mem_append_right _ h2)))
        · exact hcase (Or.inr (rSK x (List.mem_append_right _ h2)))
    · intro x hx
      rw [entriesForest_cons]
      have hx2 : x ∈ rd.failed ++ rr.failed := by
        simpa [mergeReport] using hx
      rcases List.mem_append.mp hx2 with h1 | h1
      · obtain ⟨e, he, hxe⟩ := dF x h1
        exact ⟨e, List.mem_append_left _ he, hxe⟩
      · obtain ⟨e, he, hxe⟩ := rF x h1
        exact ⟨e, List.mem_append_right _ he, hxe⟩
    · intro e he
      rw [entriesForest_cons] at he
      rcases List.mem_append.mp he with h1 | h1
      · exact List.mem_append_left _ (dG e h1)
      · exact List.mem_append_right _ (rG e h1)
    · rw [getColls_append, dGC, rGC, collsForest_cons]
    · refine createsFresh_append st.colls opsd opsr dFresh ?_
      rw [← dCA]
      exact rFresh
    · rw [rCA, dCA, collsAfter_append]
    · intro p hp
      rw [entriesForest_cons] at hp
      rw [rFr p (fun e he => hp e (List.mem_append_right _ he))]
      exact dFr p (fun e he => hp e (List.mem_append_left _ he))
    · intro c hc
      rw [collsForest_cons] at hc
      rcases List.mem_append.mp hc with h1 | h1
      · have h2 : c ∈ std.colls := dCm c h1
        rw [rCA]
        exact collsAfter_sub std.colls opsr c h2
      · exact rCm c h1

end

theorem wfTree_name (t : FTree) (h : wfTree t = true) :
    t.name.data ≠ [] ∧ '/' ∉ t.name.data := by
  obtain ⟨n, fs, subs⟩ := t
  exact nameOk_spec n (wfTree_node n fs subs h).1

/-- A collection path addressed inside one subtree can never be a
path-ancestor of one addressed inside a different (later) sibling
subtree. -/
theorem colls_cross_contra (collection : String) (d : FTree)
    (rest : List FTree) (hwd : wfTree d = true)
    (hrest : ∀ d' ∈ rest, wfTree d' = true)
    (hnodup : d.name ∉ rest.map FTree.name) (P C s : String)
    (hC : C ∈ collsTree collection d)
    (hP : P ∈ collsForest collection rest)
    (hCP : C = P ++ "/" ++ s) : False := by
  obtain ⟨d', hd', hPcase⟩ := collsForest_mem rest collection P hP
  obtain ⟨hdnil, hdns⟩ := wfTree_name d hwd
  obtain ⟨hdnil', hdns'⟩ := wfTree_name d' (hrest d' hd')
  have hname : d.name ≠ d'.name := by
    intro hee
    exact hnodup (hee ▸ List.mem_map_of_mem FTree.name hd')
  have hPZ : ∃ Z, P = collection ++ "/" ++ Z ∧
      (Z = d'.name ∨ ∃ z, Z = d'.name ++ "/" ++ z) := by
    rcases hPcase with h1 | ⟨z, h1⟩
    · exact ⟨d'.name, h1, Or.inl rfl⟩
    · refine ⟨d'.name ++ "/" ++ z, ?_, Or.inr ⟨z, rfl⟩⟩
      rw [h1]
      exact path_assoc collection d'.name z
  obtain ⟨Z, hPZ1, hZcase⟩ := hPZ
  have hCZ : C = collection ++ "/" ++ (Z ++ "/" ++ s) := by
    rw [hCP, hPZ1]
    exact path_assoc collection Z s
  rcases collsTree_mem d collection C hC with h1 | ⟨w, h1⟩
  · have h2 : d.name = Z ++ "/" ++ s :=
      str_cancel collection d.name (Z ++ "/" ++ s) (by rw [← h1, hCZ])
    exact noSlash_ne_deep d.name Z s hdns h2
  · have hC2 : C = collection ++ "/" ++ (d.name ++ "/" ++ w) := by
      rw [h1]
      exact path_assoc collection d.name w
    have heq2 : d.name ++ "/" ++ w = Z ++ "/" ++ s :=
      str_cancel collection _ _ (by rw [← hC2, hCZ])
    rcases hZcase with hZ | ⟨z, hZ⟩
    · rw [hZ] at heq2
      exact hname ((sep_inj d.name d'.name w s hdns hdns' heq2).1)
    · rw [hZ, path_assoc d'.name z s] at heq2
      exact hname ((sep_inj d.name d'.name w (z ++ "/" ++ s)
        hdns hdns' heq2).1)

mutual

/-- In the preorder collection list of one sync invocation, every prefix
of the list that contains a descendant collection path already contains
each of its addressed ancestors: parents are confirmed/created strictly
before their children. -/
theorem collsTree_parent_first (t : FTree) :
    ∀ destination P C s u v, wfTree t = true →
      P ∈ collsTree destination t → C = P ++ "/" ++ s →
      collsTree destination t = u ++ v → C ∈ u → P ∈ u := by
  intro destination P C s u v hwf hP hCP hsplit hCu
  obtain ⟨n, fs, subs⟩ := t
  obtain ⟨hn, hfs, hnd, hwfF⟩ := wfTree_node n fs subs hwf
  rw [collsTree_node] at hP hsplit
  cases u with
  | nil => simp at hCu
  | cons a u2 =>
    rw [List.cons_append] at hsplit
    obtain ⟨ha, hF⟩ := List.cons.inj hsplit
    by_cases hPc : P = destination ++ "/" ++ n
    · rw [hPc, ha]
      exact List.mem_cons_self a u2
    · have hPF : P ∈ collsForest (destination ++ "/" ++ n) subs := by
        rcases List.mem_cons.mp hP with h1 | h1
        · exact absurd h1 hPc
        · exact h1
      rcases List.mem_cons.mp hCu with hC1 | hC1
      · exfalso
        have hCD : C = destination ++ "/" ++ n := by rw [hC1, ← ha]
        obtain ⟨d', hd', hPcase⟩ :=
          collsForest_mem subs (destination ++ "/" ++ n) P hPF
        have hPX : ∃ X, P = (destination ++ "/" ++ n) ++ "/" ++ X := by
          rcases hPcase with h2 | ⟨z, h2⟩
          · exact ⟨d'.name, h2⟩
          · refine ⟨d'.name ++ "/" ++ z, ?_⟩
            rw [h2]
            exact path_assoc (destination ++ "/" ++ n) d'.name z
        obtain ⟨X, hX⟩ := hPX
        have hcontr : destination ++ "/" ++ n
            = (destination ++ "/" ++ n) ++ "/" ++ (X ++ "/" ++ s) := by
          rw [← path_assoc, ← hX, ← hCP, hCD]
        exact ne_self_extend (destination ++ "/" ++ n) (X ++ "/" ++ s)
          hcontr
      · have hsub := collsForest_parent_first subs (destination ++ "/" ++ n)
          P C s u2 v (wfForest_mem subs hwfF)
          (hnd.of_append_right) hPF hCP hF hC1
        exact List.mem_cons_of_mem a hsub

theorem collsForest_parent_first (l : List FTree) :
    ∀ collection P C s u v,
      (∀ d ∈ l, wfTree d = true) → (l.map FTree.name).Nodup →
      P ∈ collsForest collection l → C = P ++ "/" ++ s →
      collsForest collection l = u ++ v → C ∈ u → P ∈ u := by
  intro collection P C s u v hwl hnd hP hCP hsplit hCu
  cases l with
  | nil => rw [collsForest_nil] at hP; simp at hP
  | cons d rest =>
    rw [collsForest_cons] at hP hsplit
    have hwd : wfTree d = true := hwl d (List.mem_cons_self d rest)
    have hwrest : ∀ d' ∈ rest, wfTree d' = true :=
      fun d' hd' => hwl d' (List.mem_cons_of_mem d hd')
    have hndh : d.name ∉ rest.map FTree.name := by
      have := hnd
      rw [List.map_cons] at this
      exact (List.nodup_cons.mp this).1
    have hndt : (rest.map FTree.name).Nodup := by
      have := hnd
      rw [List.map_cons] at this
      exact (List.nodup_cons.mp this).2
    rcases List.append_eq_append_iff.mp hsplit with ⟨u2, hu2, hF⟩ |
      ⟨w, hw, hv⟩
    · -- u = collsTree collection d ++ u2
      rw [hu2] at hCu
      rcases List.mem_append.mp hCu with hCd | hCu2
      · -- C inside the head subtree
        rcases List.mem_append.mp hP with hPd | hPr
        · rw [hu2]
          exact List.mem_append_left u2 hPd
        · exact absurd (colls_cross_contra collection d rest hwd hwrest
            hndh P C s hCd hPr hCP) (by simp)
      · -- C inside the tail forest prefix
        rcases List.mem_append.mp hP with hPd | hPr
        · rw [hu2]
          exact List.mem_append_left u2 hPd
        · have hsub := collsForest_parent_first rest collection P C s u2 v
            hwrest hndt hPr hCP hF hCu2
          rw [hu2]
          exact List.mem_append_right _ hsub
    · -- collsTree collection d = u ++ w
      rcases List.mem_append.mp hP with hPd | hPr
      · exact collsTree_parent_first d collection P C s u w hwd hPd hCP
          hw hCu
      · have hCd : C ∈ collsTree collection d := by
          rw [hw]
          exact List.mem_append_left w hCu
        exact absurd (colls_cross_contra collection d rest hwd hwrest
          hndh P C s hCd hPr hCP) (by simp)

end

/-- C9: along one sync invocation, any prefix of the sequence of
collection existence checks that contains a descendant collection path C
already contains each addressed ancestor P (so P is created/confirmed
strictly before C), and every `collections.create` call targets a path
absent at that moment — existing collections are left untouched and an
already-exists error can never be raised. -/
theorem c9_parent_before_child_and_create_fresh (vm src destination : String)
    (t : FTree) (st : Store) (post doMeta : Bool)
    (putOut : String → PutOutcome)
    (hvm : vm = "size" ∨ vm = "checksum") (hwf : wfTree t = true) :
    (∀ P C s u v,
      P ∈ getColls
        ((syncTree vm post doMeta putOut src t destination st).2.2) →
      C = P ++ "/" ++ s →
      getColls ((syncTree vm post doMeta putOut src t destination st).2.2)
        = u ++ v →
      C ∈ u → P ∈ u) ∧
      createsFresh st.colls
        ((syncTree vm post doMeta putOut src t destination st).2.2)
        = true := by
  obtain ⟨r, st2, ops, heq, _, _, _, hGC, hFresh, _, _, _⟩ :=
    syncTree_run vm post doMeta putOut hvm t src destination st
  rw [heq]
  dsimp only
  constructor
  · intro P C s u v hP hC hsplit hCu
    rw [hGC] at hP hsplit
    exact collsTree_parent_first t destination P C s u v hwf hP hC
      hsplit hCu
  · exact hFresh

theorem c9_parent_before_child_and_create_fresh_witness :
    (("size" : String) = "size" ∨ ("size" : String) = "checksum") ∧
      wfTree (FTree.node "d" [] [FTree.node "x" [] []]) = true ∧
      ((∀ P C s u v,
        P ∈ getColls ((syncTree "size" false false
          (fun _ => PutOutcome.faithful) "/s"
          (FTree.node "d" [] [FTree.node "x" [] []]) "/z"
          ⟨[], []⟩).2.2) →
        C = P ++ "/" ++ s →
        getColls ((syncTree "size" false false
          (fun _ => PutOutcome.faithful) "/s"
          (FTree.node "d" [] [FTree.node "x" [] []]) "/z"
          ⟨[], []⟩).2.2) = u ++ v →
        C ∈ u → P ∈ u) ∧
        createsFresh (⟨[], []⟩ : Store).colls
          ((syncTree "size" false false (fun _ => PutOutcome.faithful)
            "/s" (FTree.node "d" [] [FTree.node "x" [] []]) "/z"
            ⟨[], []⟩).2.2) = true) :=
  ⟨Or.inl rfl, by decide,
    c9_parent_before_child_and_create_fresh "size" "/s" "/z"
      (FTree.node "d" [] [FTree.node "x" [] []]) ⟨[], []⟩ false false
      (fun _ => PutOutcome.faithful) (Or.inl rfl) (by decide)⟩

/-- C3 (amended): the code has no restart mechanism — `sync_directory`
takes no `restart_from` argument and reads no ledger — so a re-run
performs the verification fetch for every discovered file again,
including files a prior ledger records as succeeded; still-in-sync files
end up in `skipped` only after that re-verification. -/
theorem c3_amended_rerun_reverifies_every_file (vm src destination : String)
    (t : FTree) (st : Store) (post doMeta : Bool)
    (putOut : String → PutOutcome)
    (hvm : vm = "size" ∨ vm = "checksum") :
    ∀ e ∈ entriesTree src destination t,
      ROp.getObj e.2.2
        ∈ (syncTree vm post doMeta putOut src t destination st).2.2 := by
  obtain ⟨r, st2, ops, heq, _, _, hG, _, _, _, _, _⟩ :=
    syncTree_run vm post doMeta putOut hvm t src destination st
  rw [heq]
  exact hG

theorem c3_amended_rerun_reverifies_every_file_witness :
    (("size" : String) = "size" ∨ ("size" : String) = "checksum") ∧
      ∀ e ∈ entriesTree "/s" "/z" (FTree.node "d" [⟨"a", 5, 0⟩] []),
        ROp.getObj e.2.2
          ∈ (syncTree "size" false false (fun _ => PutOutcome.faithful)
            "/s" (FTree.node "d" [⟨"a", 5, 0⟩] []) "/z"
            ⟨["/z/d"], [("/z/d/a", ⟨5, 0, false⟩)]⟩).2.2 :=
  ⟨Or.inl rfl,
    c3_amended_rerun_reverifies_every_file "size" "/s" "/z"
      (FTree.node "d" [⟨"a", 5, 0⟩] [])
      ⟨["/z/d"], [("/z/d/a", ⟨5, 0, false⟩)]⟩ false false
      (fun _ => PutOutcome.faithful) (Or.inl rfl)⟩

/-- Per-directory counting: with distinct file names, each file of the
loop is recorded exactly once — its data-object path once across
succeeded/skipped plus its local path once in failed sum to one. -/
theorem syncFiles_counts (vm : String) (post doMeta : Bool)
    (putOut : String → PutOutcome) (src collection : String)
    (hvm : vm = "size" ∨ vm = "checksum") :
    ∀ (fs : List FileNode) (st : Store) r st2 ops,
      (fs.map (fun f => f.name)).Nodup →
      syncFiles vm post doMeta putOut src collection fs st
          = (.ok r, st2, ops) →
      ∀ f ∈ fs,
        r.succeeded.count (collection ++ "/" ++ f.name)
          + r.skipped.count (collection ++ "/" ++ f.name)
          + r.failed.count (src ++ "/" ++ f.name) = 1 := by
  intro fs
  induction fs with
  | nil => intro st r st2 ops hnd heq g hg; simp at hg
  | cons f rest ih =>
    intro st r st2 ops hnd heq
    rw [List.map_cons, List.nodup_cons] at hnd
    obtain ⟨hfnot, hndr⟩ := hnd
    obtain ⟨m, vops, hv⟩ : ∃ m vops,
        verify vm st f (collection ++ "/" ++ f.name) = some (m, vops) := by
      rcases hvm with h | h
      · exact ⟨(compare_filesize st f (collection ++ "/" ++ f.name)).1,
          (compare_filesize st f (collection ++ "/" ++ f.name)).2,
          by rw [h]; rfl⟩
      · exact ⟨(compare_checksums st f (collection ++ "/" ++ f.name)).1,
          (compare_checksums st f (collection ++ "/" ++ f.name)).2,
          by rw [h]; rfl⟩
    have hninr : ∀ f', f' ∈ rest → f.name ≠ f'.name := by
      intro f' hf' hne
      exact hfnot (hne ▸ List.mem_map_of_mem (fun q => q.name) hf')
    simp only [syncFiles] at heq
    rw [hv] at heq
    dsimp only at heq
    cases m with
    | true =>
      obtain ⟨r', st2', ops', hrest, hS, hK, hF, _, _, _, _⟩ :=
        syncFiles_run vm post doMeta putOut src collection hvm rest st
      rw [hrest] at heq
      dsimp only at heq
      rw [Prod.mk.injEq, Prod.mk.injEq] at heq
      have hr : r = { r' with
          skipped := (collection ++ "/" ++ f.name) :: r'.skipped } :=
        (Except.ok.inj heq.1).symm
      intro g hg
      have hz1 : r'.succeeded.count (collection ++ "/" ++ g.name) = 0 ∨
          g ∈ rest := by
        rcases List.mem_cons.mp hg with h1 | h1
        · subst h1
          refine Or.inl (List.count_eq_zero.mpr ?_)
          intro hmem
          obtain ⟨f', hf', he⟩ := hS _ hmem
          exact hninr f' hf' (str_cancel collection _ _ he)
        · exact Or.inr h1
      rcases List.mem_cons.mp hg with h1 | h1
      · subst h1
        rw [hr]
        have c1 : r'.succeeded.count (collection ++ "/" ++ g.name) = 0 := by
          refine List.count_eq_zero.mpr ?_
          intro hmem
          obtain ⟨f', hf', he⟩ := hS _ hmem
          exact hninr f' hf' (str_cancel collection _ _ he)
        have c2 : r'.skipped.count (collection ++ "/" ++ g.name) = 0 := by
          refine List.count_eq_zero.mpr ?_
          intro hmem
          obtain ⟨f', hf', he⟩ := hK _ hmem
          exact hninr f' hf' (str_cancel collection _ _ he)
        have c3 : r'.failed.count (src ++ "/" ++ g.name) = 0 := by
          refine List.count_eq_zero.mpr ?_
          intro hmem
          obtain ⟨f', hf', he⟩ := hF _ hmem
          exact hninr f' hf' (str_cancel src _ _ he)
        show r'.succeeded.count _
            + ((collection ++ "/" ++ g.name) :: r'.skipped).count _
            + r'.failed.count _ = 1
        rw [c1, c3, List.count_cons_self, c2]
      · have hgf : collection ++ "/" ++ g.name
            ≠ collection ++ "/" ++ f.name := by
          intro he
          exact hninr g h1 (str_cancel collection _ _ he).symm
        rw [hr]
        show r'.succeeded.count _
            + ((collection ++ "/" ++ f.name) :: r'.skipped).count _
            + r'.failed.count _ = 1
        rw [List.count_cons_of_ne hgf]
        exact ih st r' st2' ops' hndr hrest g h1
    | false =>
      rcases hu : upload_file putOut st f (src ++ "/" ++ f.name)
          (collection ++ "/" ++ f.name) post with ⟨succ, st1, uops⟩
      rw [if_neg Bool.false_ne_true] at heq
      cases succ with
      | true =>
        obtain ⟨r', st2', ops', hrest, hS, hK, hF, _, _, _, _⟩ :=
          syncFiles_run vm post doMeta putOut src collection hvm rest st1
        rw [hu] at heq
        dsimp only at heq
        rw [hrest] at heq
        dsimp only at heq
        rw [Prod.mk.injEq, Prod.mk.injEq] at heq
        have hr : r = ⟨(collection ++ "/" ++ f.name) :: r'.succeeded,
            r'.skipped, r'.failed,
            (lookupObj st1 (collection ++ "/" ++ f.name)).elim 0
                (fun o => o.size)
              + r'.cumulative_filesize_in_bytes⟩ :=
          (Except.ok.inj heq.1).symm
        intro g hg
        rcases List.mem_cons.mp hg with h1 | h1
        · subst h1
          rw [hr]
          have c1 : r'.succeeded.count (collection ++ "/" ++ g.name) = 0 := by
            refine List.count_eq_zero.mpr ?_
            intro hmem
            obtain ⟨f', hf', he⟩ := hS _ hmem
            exact hninr f' hf' (str_cancel collection _ _ he)
          have c2 : r'.skipped.count (collection ++ "/" ++ g.name) = 0 := by
            refine List.count_eq_zero.mpr ?_
            intro hmem
            obtain ⟨f', hf', he⟩ := hK _ hmem
            exact hninr f' hf' (str_cancel collection _ _ he)
          have c3 : r'.failed.count (src ++ "/" ++ g.name) = 0 := by
            refine List.count_eq_zero.mpr ?_
            intro hmem
            obtain ⟨f', hf', he⟩ := hF _ hmem
            exact hninr f' hf' (str_cancel src _ _ he)
          show (((collection ++ "/" ++ g.name) :: r'.succeeded).count _
              + r'.skipped.count _ + r'.failed.count _ = 1)
          rw [List.count_cons_self, c1, c2, c3]
        · have hgf : collection ++ "/" ++ g.name
              ≠ collection ++ "/" ++ f.name := by
            intro he
            exact hninr g h1 (str_cancel collection _ _ he).symm
          rw [hr]
          show (((collection ++ "/" ++ f.name) :: r'.succeeded).count _
              + r'.skipped.count _ + r'.failed.count _ = 1)
          rw [List.count_cons_of_ne hgf]
          exact ih st1 r' st2' ops' hndr hrest g h1
      | false =>
        obtain ⟨r', st2', ops', hrest, hS, hK, hF, _, _, _, _⟩ :=
          syncFiles_run vm post doMeta putOut src collection hvm rest st1
        rw [hu] at heq
        dsimp only at heq
        rw [hrest] at heq
        dsimp only at heq
        rw [Prod.mk.injEq, Prod.mk.injEq] at heq
        have hr : r = { r' with
            failed := (src ++ "/" ++ f.name) :: r'.failed } :=
          (Except.ok.inj heq.1).symm
        intro g hg
        rcases List.mem_cons.mp hg with h1 | h1
        · subst h1
          rw [hr]
          have c1 : r'.succeeded.count (collection ++ "/" ++ g.name) = 0 := by
            refine List.count_eq_zero.mpr ?_
            intro hmem
            obtain ⟨f', hf', he⟩ := hS _ hmem
            exact hninr f' hf' (str_cancel collection _ _ he)
          have c2 : r'.skipped.count (collection ++ "/" ++ g.name) = 0 := by
            refine List.count_eq_zero.mpr ?_
            intro hmem
            obtain ⟨f', hf', he⟩ := hK _ hmem
            exact hninr f' hf' (str_cancel collection _ _ he)
          have c3 : r'.failed.count (src ++ "/" ++ g.name) = 0 := by
            refine List.count_eq_zero.mpr ?_
            intro hmem
            obtain ⟨f', hf', he⟩ := hF _ hmem
            exact hninr f' hf' (str_cancel src _ _ he)
          show (r'.succeeded.count _ + r'.skipped.count _
              + ((src ++ "/" ++ g.name) :: r'.failed).count _ = 1)
          rw [List.count_cons_self, c1, c2, c3]
        · have hgf : src ++ "/" ++ g.name ≠ src ++ "/" ++ f.name := by
            intro he
            exact hninr g h1 (str_cancel src _ _ he).symm
          rw [hr]
          show (r'.succeeded.count _ + r'.skipped.count _
              + ((src ++ "/" ++ f.name) :: r'.failed).count _ = 1)
          rw [List.count_cons_of_ne hgf]
          exact ih st1 r' st2' ops' hndr hrest g h1

theorem file_ne_deep (c nm X y : String) (hn : '/' ∉ nm.data)
    (h : c ++ "/" ++ nm = c ++ "/" ++ X ++ "/" ++ y) : False := by
  rw [path_assoc] at h
  exact noSlash_ne_deep nm X y hn (str_cancel c _ _ h)

theorem deep_ne_deep (c a b x y : String) (ha : '/' ∉ a.data)
    (hb : '/' ∉ b.data) (hne : a ≠ b)
    (h : c ++ "/" ++ a ++ "/" ++ x = c ++ "/" ++ b ++ "/" ++ y) : False := by
  rw [path_assoc, path_assoc] at h
  exact hne (sep_inj a b x y ha hb (str_cancel c _ _ h)).1

mutual

/-- Main counting invariant of C1: on a well-formed tree every discovered
file is recorded exactly once in the returned report — its data-object
path appears once across succeeded/skipped, or its local path once in
failed. -/
theorem syncTree_counts (vm : String) (post doMeta : Bool)
    (putOut : String → PutOutcome) (hvm : vm = "size" ∨ vm = "checksum")
    (t : FTree) :
    ∀ src destination st r st2 ops, wfTree t = true →
      syncTree vm post doMeta putOut src t destination st
          = (.ok r, st2, ops) →
      ∀ e ∈ entriesTree src destination t,
        r.succeeded.count e.2.2 + r.skipped.count e.2.2
          + r.failed.count e.2.1 = 1 := by
  intro src destination st r st2 ops hwf heq e he
  obtain ⟨n, fs, subs⟩ := t
  obtain ⟨hn, hfsOk, hnd, hwfF⟩ := wfTree_node n fs subs hwf
  obtain ⟨rf, stf, opsf, hfs_eq, hS, hK, hF, _, _, _, _⟩ :=
    syncFiles_run vm post doMeta putOut src (destination ++ "/" ++ n) hvm
      fs (ensureColl st (destination ++ "/" ++ n)).1
  obtain ⟨rs, sts, opss, hss_eq, sSK, sF, _, _, _, _, _, _⟩ :=
    syncSubs_run vm post doMeta putOut hvm subs src
      (destination ++ "/" ++ n) stf
  have heq2 : syncTree vm post doMeta putOut src (.node n fs subs)
      destination st
      = (.ok (mergeReport rf rs), sts,
        (ensureColl st (destination ++ "/" ++ n)).2 ++ opsf ++ opss) := by
    simp only [syncTree]
    rw [hfs_eq]
    dsimp only
    rw [hss_eq]
  rw [heq2, Prod.mk.injEq, Prod.mk.injEq] at heq
  have hr : r = mergeReport rf rs := (Except.ok.inj heq.1).symm
  rw [hr]
  show (rf.succeeded ++ rs.succeeded).count e.2.2
      + (rf.skipped ++ rs.skipped).count e.2.2
      + (rf.failed ++ rs.failed).count e.2.1 = 1
  rw [List.count_append, List.count_append, List.count_append]
  rw [entriesTree_node] at he
  rcases List.mem_append.mp he with h1 | h1
  · obtain ⟨f, hf, hfe⟩ := List.mem_map.mp h1
    subst hfe
    dsimp only
    obtain ⟨hfn_nil, hfn_ns⟩ := nameOk_spec f.name (hfsOk f hf)
    have z1 : rs.succeeded.count
        (destination ++ "/" ++ n ++ "/" ++ f.name) = 0 := by
      refine List.count_eq_zero.mpr ?_
      intro hmem
      obtain ⟨e', he', hxe⟩ := sSK _ (List.mem_append_left _ hmem)
      obtain ⟨d, w, hd, hw⟩ := entriesForest_rp_under subs src
        (destination ++ "/" ++ n) e' he'
      exact file_ne_deep (destination ++ "/" ++ n) f.name d.name w hfn_ns
        (by rw [hxe, hw])
    have z2 : rs.skipped.count
        (destination ++ "/" ++ n ++ "/" ++ f.name) = 0 := by
      refine List.count_eq_zero.mpr ?_
      intro hmem
      obtain ⟨e', he', hxe⟩ := sSK _ (List.mem_append_right _ hmem)
      obtain ⟨d, w, hd, hw⟩ := entriesForest_rp_under subs src
        (destination ++ "/" ++ n) e' he'
      exact file_ne_deep (destination ++ "/" ++ n) f.name d.name w hfn_ns
        (by rw [hxe, hw])
    have z3 : rs.failed.count (src ++ "/" ++ f.name) = 0 := by
      refine List.count_eq_zero.mpr ?_
      intro hmem
      obtain ⟨e', he', hxe⟩ := sF _ hmem
      obtain ⟨d, z, hd, hz⟩ := entriesForest_lp_under subs src
        (destination ++ "/" ++ n) e' he'
      exact file_ne_deep src f.name d.name z hfn_ns (by rw [hxe, hz])
    have hown := syncFiles_counts vm post doMeta putOut src
      (destination ++ "/" ++ n) hvm fs
      (ensureColl st (destination ++ "/" ++ n)).1 rf stf opsf
      hnd.of_append_left hfs_eq f hf
    rw [z1, z2, z3]
    omega
  · have he22 := entriesForest_rp_under subs src (destination ++ "/" ++ n)
      e h1
    have he21 := entriesForest_lp_under subs src (destination ++ "/" ++ n)
      e h1
    obtain ⟨d, w, hd, hw⟩ := he22
    obtain ⟨d2, z, hd2, hz⟩ := he21
    obtain ⟨_, hdn_ns⟩ := wfTree_name d (wfForest_mem subs hwfF d hd)
    obtain ⟨_, hdn2_ns⟩ := wfTree_name d2 (wfForest_mem subs hwfF d2 hd2)
    have z1 : rf.succeeded.count e.2.2 = 0 := by
      refine List.count_eq_zero.mpr ?_
      intro hmem
      obtain ⟨f', hf', hxe⟩ := hS _ hmem
      obtain ⟨_, hfn_ns⟩ := nameOk_spec f'.name (hfsOk f' hf')
      exact file_ne_deep (destination ++ "/" ++ n) f'.name d.name w hfn_ns
        (by rw [← hxe, hw])
    have z2 : rf.skipped.count e.2.2 = 0 := by
      refine List.count_eq_zero.mpr ?_
      intro hmem
      obtain ⟨f', hf', hxe⟩ := hK _ hmem
      obtain ⟨_, hfn_ns⟩ := nameOk_spec f'.name (hfsOk f' hf')
      exact file_ne_deep (destination ++ "/" ++ n) f'.name d.name w hfn_ns
        (by rw [← hxe, hw])
    have z3 : rf.failed.count e.2.1 = 0 := by
      refine List.count_eq_zero.mpr ?_
      intro hmem
      obtain ⟨f', hf', hxe⟩ := hF _ hmem
      obtain ⟨_, hfn_ns⟩ := nameOk_spec f'.name (hfsOk f' hf')
      exact file_ne_deep src f'.name d2.name z hfn_ns (by rw [← hxe, hz])
    have hsub := syncSubs_counts vm post doMeta putOut hvm subs src
      (destination ++ "/" ++ n) stf rs sts opss
      (wfForest_mem subs hwfF) hnd.of_append_right hss_eq e h1
    rw [z1, z2, z3]
    omega

theorem syncSubs_counts (vm : String) (post doMeta : Bool)
    (putOut : String → PutOutcome) (hvm : vm = "size" ∨ vm = "checksum")
    (l : List FTree) :
    ∀ src collection st r st2 ops,
      (∀ d ∈ l, wfTree d = true) → (l.map FTree.name).Nodup →
      syncSubs vm post doMeta putOut src collection l st
          = (.ok r, st2, ops) →
      ∀ e ∈ entriesForest src collection l,
        r.succeeded.count e.2.2 + r.skipped.count e.2.2
          + r.failed.count e.2.1 = 1 := by
  intro src collection st r st2 ops hwl hnd heq e he
  cases l with
  | nil => rw [entriesForest_nil] at he; simp at he
  | cons d rest =>
    have hwd : wfTree d = true := hwl d (List.mem_cons_self d rest)
    have hwrest : ∀ d' ∈ rest, wfTree d' = true :=
      fun d' hd' => hwl d' (List.mem_cons_of_mem d hd')
    rw [List.map_cons, List.nodup_cons] at hnd
    obtain ⟨hndh, hndt⟩ := hnd
    obtain ⟨rd, std, opsd, hd_eq, dSK, dF, _, _, _, _, _, _⟩ :=
      syncTree_run vm post doMeta putOut hvm d (src ++ "/" ++ d.name)
        collection st
    obtain ⟨rr, str, opsr, hr_eq, rSK, rF, _, _, _, _, _, _⟩ :=
      syncSubs_run vm post doMeta putOut hvm rest src collection std
    have heq2 : syncSubs vm post doMeta putOut src collection (d :: rest) st
        = (.ok (mergeReport rd rr), str, opsd ++ opsr) := by
      simp only [syncSubs]
      rw [hd_eq]
      dsimp only
      rw [hr_eq]
    rw [heq2, Prod.mk.injEq, Prod.mk.injEq] at heq
    have hr : r = mergeReport rd rr := (Except.ok.inj heq.1).symm
    rw [hr]
    show (rd.succeeded ++ rr.succeeded).count e.2.2
        + (rd.skipped ++ rr.skipped).count e.2.2
        + (rd.failed ++ rr.failed).count e.2.1 = 1
    rw [List.count_append, List.count_append, List.count_append]
    obtain ⟨_, hdn_ns⟩ := wfTree_name d hwd
    rw [entriesForest_cons] at he
    rcases List.mem_append.mp he with h1 | h1
    · obtain ⟨w, hw⟩ := entriesTree_rp_under d (src ++ "/" ++ d.name)
        collection e h1
      obtain ⟨z, hz⟩ := entriesTree_lp_under d (src ++ "/" ++ d.name)
        collection e h1
      have z1 : rr.succeeded.count e.2.2 = 0 := by
        refine List.count_eq_zero.mpr ?_
        intro hmem
        obtain ⟨e', he', hxe⟩ := rSK _ (List.mem_append_left _ hmem)
        obtain ⟨d', w', hd', hw'⟩ := entriesForest_rp_under rest src
          collection e' he'
        obtain ⟨_, hdn'_ns⟩ := wfTree_name d' (hwrest d' hd')
        have hne : d.name ≠ d'.name := fun hee =>
          hndh (hee ▸ List.mem_map_of_mem FTree.name hd')
        exact deep_ne_deep collection d.name d'.name w w' hdn_ns hdn'_ns
          hne (by rw [← hw, hxe, hw'])
      have z2 : rr.skipped.count e.2.2 = 0 := by
        refine List.count_eq_zero.mpr ?_
        intro hmem
        obtain ⟨e', he', hxe⟩ := rSK _ (List.mem_append_right _ hmem)
        obtain ⟨d', w', hd', hw'⟩ := entriesForest_rp_under rest src
          collection e' he'
        obtain ⟨_, hdn'_ns⟩ := wfTree_name d' (hwrest d' hd')
        have hne : d.name ≠ d'.name := fun hee =>
          hndh (hee ▸ List.mem_map_of_mem FTree.name hd')
        exact deep_ne_deep collection d.name d'.name w w' hdn_ns hdn'_ns
          hne (by rw [← hw, hxe, hw'])
      have z3 : rr.failed.count e.2.1 = 0 := by
        refine List.count_eq_zero.mpr ?_
        intro hmem
        obtain ⟨e', he', hxe⟩ := rF _ hmem
        obtain ⟨d', z', hd', hz'⟩ := entriesForest_lp_under rest src
          collection e' he'
        obtain ⟨_, hdn'_ns⟩ := wfTree_name d' (hwrest d' hd')
        have hne : d.name ≠ d'.name := fun hee =>
          hndh (hee ▸ List.mem_map_of_mem FTree.name hd')
        have hz2 : e.2.1 = src ++ "/" ++ d.name ++ "/" ++ z := hz
        exact deep_ne_deep src d.name d'.name z z' hdn_ns hdn'_ns hne
          (by rw [← hz2, hxe, hz'])
      have hhead := syncTree_counts vm post doMeta putOut hvm d
        (src ++ "/" ++ d.name) collection st rd std opsd hwd hd_eq e h1
      rw [z1, z2, z3]
      omega
    · obtain ⟨d2, w, hd2, hw⟩ := entriesForest_rp_under rest src
        collection e h1
      obtain ⟨d3, z, hd3, hz⟩ := entriesForest_lp_under rest src
        collection e h1
      obtain ⟨_, hdn2_ns⟩ := wfTree_name d2 (hwrest d2 hd2)
      obtain ⟨_, hdn3_ns⟩ := wfTree_name d3 (hwrest d3 hd3)
      have z1 : rd.succeeded.count e.2.2 = 0 := by
        refine List.count_eq_zero.mpr ?_
        intro hmem
        obtain ⟨e', he', hxe⟩ := dSK _ (List.mem_append_left _ hmem)
        obtain ⟨w', hw'⟩ := entriesTree_rp_under d (src ++ "/" ++ d.name)
          collection e' he'
        have hne : d.name ≠ d2.name := fun hee =>
          hndh (hee ▸ List.mem_map_of_mem FTree.name hd2)
        exact deep_ne_deep collection d.name d2.name w' w hdn_ns hdn2_ns
          hne (by rw [← hw', ← hxe, hw])
      have z2 : rd.skipped.count e.2.2 = 0 := by
        refine List.count_eq_zero.mpr ?_
        intro hmem
        obtain ⟨e', he', hxe⟩ := dSK _ (List.mem_append_right _ hmem)
        obtain ⟨w', hw'⟩ := entriesTree_rp_under d (src ++ "/" ++ d.name)
          collection e' he'
        have hne : d.name ≠ d2.name := fun hee =>
          hndh (hee ▸ List.mem_map_of_mem FTree.name hd2)
        exact deep_ne_deep collection d.name d2.name w' w hdn_ns hdn2_ns
          hne (by rw [← hw', ← hxe, hw])
      have z3 : rd.failed.count e.2.1 = 0 := by
        refine List.count_eq_zero.mpr ?_
        intro hmem
        obtain ⟨e', he', hxe⟩ := dF _ hmem
        obtain ⟨z', hz'⟩ := entriesTree_lp_under d (src ++ "/" ++ d.name)
          collection e' he'
        have hne : d.name ≠ d3.name := fun hee =>
          hndh (hee ▸ List.mem_map_of_mem FTree.name hd3)
        exact deep_ne_deep src d.name d3.name z' z hdn_ns hdn3_ns hne
          (by rw [← hz', ← hxe, hz])
      have htail := syncSubs_counts vm post doMeta putOut hvm rest src
        collection std rr str opsr hwrest hndt hr_eq e h1
      rw [z1, z2, z3]
      omega

end

/-- C1: for every run with `verification_method` in `{size, checksum}` on
a well-formed source tree, `sync_directory` returns a report in which
every discovered file appears in exactly one of the succeeded, skipped or
failed lists — its data-object path is counted exactly once across
succeeded and skipped, or its local path exactly once in failed, the
three counts summing to one (never zero, never more than one). -/
theorem c1_each_file_recorded_exactly_once (vm src destination : String)
    (t : FTree) (st : Store) (post doMeta : Bool)
    (putOut : String → PutOutcome)
    (hvm : vm = "size" ∨ vm = "checksum") (hwf : wfTree t = true) :
    ∃ r st2 ops,
      syncTree vm post doMeta putOut src t destination st
          = (.ok r, st2, ops) ∧
        ∀ e ∈ entriesTree src destination t,
          r.succeeded.count e.2.2 + r.skipped.count e.2.2
            + r.failed.count e.2.1 = 1 := by
  obtain ⟨r, st2, ops, heq, _⟩ :=
    syncTree_run vm post doMeta putOut hvm t src destination st
  exact ⟨r, st2, ops, heq, syncTree_counts vm post doMeta putOut hvm t
    src destination st r st2 ops hwf heq⟩

theorem c1_each_file_recorded_exactly_once_witness :
    (("size" : String) = "size" ∨ ("size" : String) = "checksum") ∧
      wfTree (FTree.node "d" [⟨"a", 5, 7⟩]
        [FTree.node "x" [⟨"b", 3, 1⟩] []]) = true ∧
      ∃ r st2 ops,
        syncTree "size" false false (fun _ => PutOutcome.faithful) "/s"
            (FTree.node "d" [⟨"a", 5, 7⟩] [FTree.node "x" [⟨"b", 3, 1⟩] []])
            "/z" ⟨[], []⟩
            = (.ok r, st2, ops) ∧
          ∀ e ∈ entriesTree "/s" "/z"
            (FTree.node "d" [⟨"a", 5, 7⟩] [FTree.node "x" [⟨"b", 3, 1⟩] []]),
            r.succeeded.count e.2.2 + r.skipped.count e.2.2
              + r.failed.count e.2.1 = 1 :=
  ⟨Or.inl rfl, by decide,
    c1_each_file_recorded_exactly_once "size" "/s" "/z"
      (FTree.node "d" [⟨"a", 5, 7⟩] [FTree.node "x" [⟨"b", 3, 1⟩] []])
      ⟨[], []⟩ false false (fun _ => PutOutcome.faithful)
      (Or.inl rfl) (by decide)⟩

theorem compare_filesize_true (st : Store) (f : FileNode) (dst : String)
    (h : (compare_filesize st f dst).1 = true) :
    ∃ o, lookupObj st dst = some o ∧ o.size = f.size := by
  rcases hL : lookupObj st dst with _ | o
  · unfold compare_filesize at h
    rw [hL] at h
    simp at h
  · unfold compare_filesize at h
    rw [hL] at h
    dsimp only at h
    exact ⟨o, rfl, by simpa using h⟩

theorem compare_filesize_of_fact (st : Store) (f : FileNode) (dst : String)
    (o : RObj) (hL : lookupObj st dst = some o) (hsz : o.size = f.size) :
    compare_filesize st f dst = (true, [ROp.getObj dst]) := by
  unfold compare_filesize
  rw [hL]
  dsimp only
  rw [hsz]
  simp

theorem upload_file_faithful (putOut : String → PutOutcome) (st : Store)
    (f : FileNode) (lp dst : String) (post : Bool)
    (h : putOut dst = PutOutcome.faithful) :
    ∃ uops, upload_file putOut st f lp dst post
      = (true, putObj st dst ⟨f.size, f.content, false⟩, uops) := by
  unfold upload_file
  rw [h]
  cases post with
  | false => exact ⟨[ROp.putOp lp dst], rfl⟩
  | true =>
    dsimp only
    have hc : (compare_checksums
        (putObj st dst ⟨f.size, f.content, false⟩) f dst).1 = true := by
      unfold compare_checksums
      rw [lookupObj_putObj_self]
      dsimp only
      have h1 : ((RObj.mk f.size f.content false).size != f.size) = false := by
        simp
      rw [h1]
      simp
    refine ⟨ROp.putOp lp dst :: (compare_checksums
      (putObj st dst ⟨f.size, f.content, false⟩) f dst).2, ?_⟩
    rw [Prod.mk.injEq]
    exact ⟨hc, rfl⟩

/-- With every `put` faithful and vm = size, the per-file loop never
records a failure, and afterwards each of its files has a remote object
of the file's size at its data-object path. -/
theorem syncFiles_faithful (post doMeta : Bool)
    (putOut : String → PutOutcome) (src collection : String)
    (hfa : ∀ p, putOut p = PutOutcome.faithful) :
    ∀ (fs : List FileNode) (st : Store),
      (fs.map (fun f => f.name)).Nodup →
      ∃ r st2 ops,
        syncFiles "size" post doMeta putOut src collection fs st
            = (.ok r, st2, ops) ∧
          r.failed = [] ∧
          (∀ f ∈ fs, ∃ o,
            lookupObj st2 (collection ++ "/" ++ f.name) = some o ∧
              o.size = f.size) := by
  intro fs
  induction fs with
  | nil =>
    intro st hnd
    exact ⟨emptyReport, st, [], rfl, rfl, by simp⟩
  | cons f rest ih =>
    intro st hnd
    rw [List.map_cons, List.nodup_cons] at hnd
    obtain ⟨hfnot, hndr⟩ := hnd
    have hninr : ∀ f', f' ∈ rest → f.name ≠ f'.name := by
      intro f' hf' hne
      exact hfnot (hne ▸ List.mem_map_of_mem (fun q => q.name) hf')
    rcases hcf : compare_filesize st f (collection ++ "/" ++ f.name)
      with ⟨m, vops⟩
    have hv : verify "size" st f (collection ++ "/" ++ f.name)
        = some (m, vops) := by
      rw [show verify "size" st f (collection ++ "/" ++ f.name)
        = some (compare_filesize st f (collection ++ "/" ++ f.name))
        from rfl, hcf]
    cases m with
    | true =>
      obtain ⟨o, hLo, hsz⟩ := compare_filesize_true st f
        (collection ++ "/" ++ f.name) (by rw [hcf])
      obtain ⟨r', st2', ops', hrest, hfail', hfacts'⟩ := ih st hndr
      obtain ⟨_, _, _, hrest2, _, _, _, _, _, _, hFr⟩ :=
        syncFiles_run "size" post doMeta putOut src collection
          (Or.inl rfl) rest st
      rw [hrest] at hrest2
      refine ⟨{ r' with
          skipped := (collection ++ "/" ++ f.name) :: r'.skipped },
        st2', vops ++ ops', ?_, hfail', ?_⟩
      · simp only [syncFiles]
        rw [hv]
        dsimp only
        rw [hrest]
        rfl
      · intro g hg
        rcases List.mem_cons.mp hg with h1 | h1
        · subst h1
          have hfr : lookupObj st2' (collection ++ "/" ++ g.name)
              = lookupObj st (collection ++ "/" ++ g.name) := by
            rw [Prod.mk.injEq, Prod.mk.injEq] at hrest2
            obtain ⟨he1, he2, he3⟩ := hrest2
            have hfrm := hFr (collection ++ "/" ++ g.name)
              (fun f' hf' he => hninr f' hf'
                (str_cancel collection _ _ he))
            rw [he2]
            exact hfrm
          rw [hfr]
          exact ⟨o, hLo, hsz⟩
        · exact hfacts' g h1
    | false =>
      obtain ⟨uops, hu⟩ := upload_file_faithful putOut st f
        (src ++ "/" ++ f.name) (collection ++ "/" ++ f.name) post
        (hfa (collection ++ "/" ++ f.name))
      obtain ⟨r', st2', ops', hrest, hfail', hfacts'⟩ :=
        ih (putObj st (collection ++ "/" ++ f.name)
          ⟨f.size, f.content, false⟩) hndr
      obtain ⟨_, _, _, hrest2, _, _, _, _, _, _, hFr⟩ :=
        syncFiles_run "size" post doMeta putOut src collection
          (Or.inl rfl) rest
          (putObj st (collection ++ "/" ++ f.name)
            ⟨f.size, f.content, false⟩)
      rw [hrest] at hrest2
      refine ⟨⟨(collection ++ "/" ++ f.name) :: r'.succeeded, r'.skipped,
        r'.failed,
        (lookupObj (putObj st (collection ++ "/" ++ f.name)
            ⟨f.size, f.content, false⟩) (collection ++ "/" ++ f.name)).elim
          0 (fun o => o.size) + r'.cumulative_filesize_in_bytes⟩,
        st2', ?_, ?_, hfail', ?_⟩
      · exact vops ++ uops
          ++ (ROp.getObj (collection ++ "/" ++ f.name) ::
            (if doMeta then [ROp.getObj (collection ++ "/" ++ f.name),
              ROp.addMeta (collection ++ "/" ++ f.name)] else []))
          ++ ops'
      · simp only [syncFiles]
        rw [hv]
        dsimp only
        rw [if_neg Bool.false_ne_true, hu]
        dsimp only
        rw [hrest]
      · intro g hg
        rcases List.mem_cons.mp hg with h1 | h1
        · subst h1
          have hfr : lookupObj st2' (collection ++ "/" ++ g.name)
              = lookupObj (putObj st (collection ++ "/" ++ g.name)
                ⟨g.size, g.content, false⟩)
                (collection ++ "/" ++ g.name) := by
            rw [Prod.mk.injEq, Prod.mk.injEq] at hrest2
            obtain ⟨he1, he2, he3⟩ := hrest2
            have hfrm := hFr (collection ++ "/" ++ g.name)
              (fun f' hf' he => hninr f' hf'
                (str_cancel collection _ _ he))
            rw [he2]
            exact hfrm
          rw [hfr, lookupObj_putObj_self]
          exact ⟨⟨g.size, g.content, false⟩, rfl, rfl⟩
        · exact hfacts' g h1

mutual

/-- First-run postcondition for C4: with every `put` faithful and size
verification, the run reports no failures and leaves, for every
discovered file, a remote object of the file's size at its data-object
path. -/
theorem syncTree_faithful (post doMeta : Bool)
    (putOut : String → PutOutcome)
    (hfa : ∀ p, putOut p = PutOutcome.faithful) (t : FTree) :
    ∀ src destination st, wfTree t = true →
      ∃ r st2 ops,
        syncTree "size" post doMeta putOut src t destination st
            = (.ok r, st2, ops) ∧
          r.failed = [] ∧
          (∀ e ∈ entriesTree src destination t, ∃ o,
            lookupObj st2 e.2.2 = some o ∧ o.size = e.1.size) := by
  intro src destination st hwf
  obtain ⟨n, fs, subs⟩ := t
  obtain ⟨hn, hfsOk, hnd, hwfF⟩ := wfTree_node n fs subs hwf
  obtain ⟨rf, stf, opsf, hfseq, hffail, hffacts⟩ :=
    syncFiles_faithful post doMeta putOut src (destination ++ "/" ++ n)
      hfa fs (ensureColl st (destination ++ "/" ++ n)).1
      hnd.of_append_left
  obtain ⟨rs, sts, opss, hsseq, hsfail, hsfacts⟩ :=
    syncSubs_faithful post doMeta putOut hfa subs src
      (destination ++ "/" ++ n) stf (wfForest_mem subs hwfF)
      hnd.of_append_right
  obtain ⟨rs2, sts2, opss2, hss2, _, _, _, _, _, _, sFr, _⟩ :=
    syncSubs_run "size" post doMeta putOut (Or.inl rfl) subs src
      (destination ++ "/" ++ n) stf
  rw [hsseq, Prod.mk.injEq, Prod.mk.injEq] at hss2
  obtain ⟨hssr, hsss, hsso⟩ := hss2
  refine ⟨mergeReport rf rs, sts,
    (ensureColl st (destination ++ "/" ++ n)).2 ++ opsf ++ opss, ?_, ?_, ?_⟩
  · simp only [syncTree]
    rw [hfseq]
    dsimp only
    rw [hsseq]
  · show rf.failed ++ rs.failed = []
    rw [hffail, hsfail]
    rfl
  · intro e he
    rw [entriesTree_node] at he
    rcases List.mem_append.mp he with h1 | h1
    · obtain ⟨f, hf, hfe⟩ := List.mem_map.mp h1
      subst hfe
      dsimp only
      obtain ⟨_, hfn_ns⟩ := nameOk_spec f.name (hfsOk f hf)
      have hsurv : lookupObj sts
            (destination ++ "/" ++ n ++ "/" ++ f.name)
          = lookupObj stf (destination ++ "/" ++ n ++ "/" ++ f.name) := by
        have hfrm := sFr (destination ++ "/" ++ n ++ "/" ++ f.name) ?_
        · rw [hsss]
          exact hfrm
        · intro e' he' hne
          obtain ⟨d, w, hd, hw⟩ := entriesForest_rp_under subs src
            (destination ++ "/" ++ n) e' he'
          exact file_ne_deep (destination ++ "/" ++ n) f.name d.name w
            hfn_ns (by rw [hne, hw])
      rw [hsurv]
      exact hffacts f hf
    · exact hsfacts e h1

theorem syncSubs_faithful (post doMeta : Bool)
    (putOut : String → PutOutcome)
    (hfa : ∀ p, putOut p = PutOutcome.faithful) (l : List FTree) :
    ∀ src collection st, (∀ d ∈ l, wfTree d = true) →
      (l.map FTree.name).Nodup →
      ∃ r st2 ops,
        syncSubs "size" post doMeta putOut src collection l st
            = (.ok r, st2, ops) ∧
          r.failed = [] ∧
          (∀ e ∈ entriesForest src collection l, ∃ o,
            lookupObj st2 e.2.2 = some o ∧ o.size = e.1.size) := by
  intro src collection st hwl hlnd
  cases l with
  | nil =>
    refine ⟨emptyReport, st, [], rfl, rfl, ?_⟩
    intro e he
    rw [entriesForest_nil] at he
    simp at he
  | cons d rest =>
    have hwd : wfTree d = true := hwl d (List.mem_cons_self d rest)
    have hwrest : ∀ d' ∈ rest, wfTree d' = true :=
      fun d' hd' => hwl d' (List.mem_cons_of_mem d hd')
    rw [List.map_cons, List.nodup_cons] at hlnd
    obtain ⟨hndh, hndt⟩ := hlnd
    obtain ⟨_, hdn_ns⟩ := wfTree_name d hwd
    obtain ⟨rd, std, opsd, hdeq, hdfail, hdfacts⟩ :=
      syncTree_faithful post doMeta putOut hfa d (src ++ "/" ++ d.name)
        collection st hwd
    obtain ⟨rr, str, opsr, hreq, hrfail, hrfacts⟩ :=
      syncSubs_faithful post doMeta putOut hfa rest src collection std
        hwrest hndt
    obtain ⟨rr2, str2, opsr2, hrr2, _, _, _, _, _, _, rFr, _⟩ :=
      syncSubs_run "size" post doMeta putOut (Or.inl rfl) rest src
        collection std
    rw [hreq, Prod.mk.injEq, Prod.mk.injEq] at hrr2
    obtain ⟨hrrr, hrrs, hrro⟩ := hrr2
    refine ⟨mergeReport rd rr, str, opsd ++ opsr, ?_, ?_, ?_⟩
    · simp only [syncSubs]
      rw [hdeq]
      dsimp only
      rw [hreq]
    · show rd.failed ++ rr.failed = []
      rw [hdfail, hrfail]
      rfl
    · intro e he
      rw [entriesForest_cons] at he
      rcases List.mem_append.mp he with h1 | h1
      · obtain ⟨w, hw⟩ := entriesTree_rp_under d (src ++ "/" ++ d.name)
          collection e h1
        have hsurv : lookupObj str e.2.2 = lookupObj std e.2.2 := by
          have hfrm := rFr e.2.2 ?_
          · rw [hrrs]
            exact hfrm
          · intro e' he' hne
            obtain ⟨d', w', hd', hw'⟩ := entriesForest_rp_under rest src
              collection e' he'
            obtain ⟨_, hdn'_ns⟩ := wfTree_name d' (hwrest d' hd')
            have hnn : d.name ≠ d'.name := by
              intro hee
              exact hndh (hee ▸ List.mem_map_of_mem FTree.name hd')
            exact deep_ne_deep collection d.name d'.name w w' hdn_ns
              hdn'_ns hnn (by rw [← hw, hne, hw'])
        rw [hsurv]
        exact hdfacts e h1
      · exact hrfacts e h1

end

/-- Second-run behaviour of the per-file loop when every file already has
a size-matching remote object: everything is skipped, nothing is
uploaded, no byte is counted and the store is untouched. -/
theorem syncFiles_allskip (post doMeta : Bool)
    (putOut : String → PutOutcome) (src collection : String) :
    ∀ (fs : List FileNode) (st : Store),
      (∀ f ∈ fs, ∃ o, lookupObj st (collection ++ "/" ++ f.name) = some o
        ∧ o.size = f.size) →
      ∃ ops, syncFiles "size" post doMeta putOut src collection fs st
        = (.ok ⟨[], fs.map (fun f => collection ++ "/" ++ f.name), [], 0⟩,
          st, ops) := by
  intro fs
  induction fs with
  | nil => intro st hfacts; exact ⟨[], rfl⟩
  | cons f rest ih =>
    intro st hfacts
    obtain ⟨o, hLo, hsz⟩ := hfacts f (List.mem_cons_self f rest)
    have hcf := compare_filesize_of_fact st f (collection ++ "/" ++ f.name)
      o hLo hsz
    have hv : verify "size" st f (collection ++ "/" ++ f.name)
        = some (true, [ROp.getObj (collection ++ "/" ++ f.name)]) := by
      rw [show verify "size" st f (collection ++ "/" ++ f.name)
        = some (compare_filesize st f (collection ++ "/" ++ f.name))
        from rfl, hcf]
    obtain ⟨ops', hrest⟩ := ih st
      (fun g hg => hfacts g (List.mem_cons_of_mem f hg))
    refine ⟨[ROp.getObj (collection ++ "/" ++ f.name)] ++ ops', ?_⟩
    simp only [syncFiles]
    rw [hv]
    dsimp only
    rw [hrest]
    rfl

mutual

/-- Second-run behaviour of `sync_directory`: when every discovered file
already has a size-matching remote object and every addressed collection
exists, the run succeeds [] / skips everything / fails nothing, counts
zero bytes, and leaves the store exactly as it was. -/
theorem syncTree_allskip (post doMeta : Bool)
    (putOut : String → PutOutcome) (t : FTree) :
    ∀ src destination st,
      (∀ e ∈ entriesTree src destination t, ∃ o,
        lookupObj st e.2.2 = some o ∧ o.size = e.1.size) →
      (∀ c ∈ collsTree destination t, c ∈ st.colls) →
      ∃ ops, syncTree "size" post doMeta putOut src t destination st
        = (.ok ⟨[], (entriesTree src destination t).map (fun e => e.2.2),
          [], 0⟩, st, ops) := by
  intro src destination st hfacts hcolls
  obtain ⟨n, fs, subs⟩ := t
  have hc : destination ++ "/" ++ n ∈ st.colls := by
    refine hcolls _ ?_
    rw [collsTree_node]
    exact List.mem_cons_self _ _
  have hens : ensureColl st (destination ++ "/" ++ n)
      = (st, [ROp.getColl (destination ++ "/" ++ n)]) := by
    unfold ensureColl
    rw [if_pos hc]
  have hffacts : ∀ f ∈ fs, ∃ o,
      lookupObj st (destination ++ "/" ++ n ++ "/" ++ f.name) = some o
        ∧ o.size = f.size := by
    intro f hf
    have hmem : (f, src ++ "/" ++ f.name,
        destination ++ "/" ++ n ++ "/" ++ f.name)
        ∈ entriesTree src destination (.node n fs subs) := by
      rw [entriesTree_node]
      exact List.mem_append_left _ (List.mem_map_of_mem _ hf)
    exact hfacts _ hmem
  obtain ⟨opsf, hfeq⟩ := syncFiles_allskip post doMeta putOut src
    (destination ++ "/" ++ n) fs st hffacts
  obtain ⟨opss, hseq⟩ := syncSubs_allskip post doMeta putOut subs src
    (destination ++ "/" ++ n) st
    (fun e he => hfacts e (by rw [entriesTree_node]; exact List.mem_append_right _ he))
    (fun c hcm => hcolls c (by rw [collsTree_node]; exact List.mem_cons_of_mem _ hcm))
  refine ⟨[ROp.getColl (destination ++ "/" ++ n)] ++ opsf ++ opss, ?_⟩
  have hstep : syncTree "size" post doMeta putOut src (.node n fs subs)
      destination st
      = (.ok (mergeReport
          ⟨[], fs.map (fun f => destination ++ "/" ++ n ++ "/" ++ f.name),
            [], 0⟩
          ⟨[], (entriesForest src (destination ++ "/" ++ n) subs).map
            (fun e => e.2.2), [], 0⟩),
        st, [ROp.getColl (destination ++ "/" ++ n)] ++ opsf ++ opss) := by
    simp only [syncTree]
    rw [hens]
    dsimp only
    rw [hfeq]
    dsimp only
    rw [hseq]
  rw [hstep]
  have hrep : mergeReport
      ⟨[], fs.map (fun f => destination ++ "/" ++ n ++ "/" ++ f.name),
        [], 0⟩
      ⟨[], (entriesForest src (destination ++ "/" ++ n) subs).map
        (fun e => e.2.2), [], 0⟩
      = ⟨[], (entriesTree src destination (.node n fs subs)).map
        (fun e => e.2.2), [], 0⟩ := by
    unfold mergeReport
    rw [entriesTree_node, List.map_append, List.map_map]
    rfl
  rw [hrep]

theorem syncSubs_allskip (post doMeta : Bool)
    (putOut : String → PutOutcome) (l : List FTree) :
    ∀ src collection st,
      (∀ e ∈ entriesForest src collection l, ∃ o,
        lookupObj st e.2.2 = some o ∧ o.size = e.1.size) →
      (∀ c ∈ collsForest collection l, c ∈ st.colls) →
      ∃ ops, syncSubs "size" post doMeta putOut src collection l st
        = (.ok ⟨[], (entriesForest src collection l).map (fun e => e.2.2),
          [], 0⟩, st, ops) := by
  intro src collection st hfacts hcolls
  cases l with
  | nil => exact ⟨[], rfl⟩
  | cons d rest =>
    obtain ⟨opsd, hdeq⟩ := syncTree_allskip post doMeta putOut d
      (src ++ "/" ++ d.name) collection st
      (fun e he => hfacts e (by rw [entriesForest_cons]; exact List.mem_append_left _ he))
      (fun c hc => hcolls c (by rw [collsForest_cons]; exact List.mem_append_left _ hc))
    obtain ⟨opsr, hreq⟩ := syncSubs_allskip post doMeta putOut rest src
      collection st
      (fun e he => hfacts e (by rw [entriesForest_cons]; exact List.mem_append_right _ he))
      (fun c hc => hcolls c (by rw [collsForest_cons]; exact List.mem_append_right _ hc))
    refine ⟨opsd ++ opsr, ?_⟩
    have hstep : syncSubs "size" post doMeta putOut src collection
        (d :: rest) st
        = (.ok (mergeReport
            ⟨[], (entriesTree (src ++ "/" ++ d.name) collection d).map
              (fun e => e.2.2), [], 0⟩
            ⟨[], (entriesForest src collection rest).map (fun e => e.2.2),
              [], 0⟩),
          st, opsd ++ opsr) := by
      simp only [syncSubs]
      rw [hdeq]
      dsimp only
      rw [hreq]
    rw [hstep]
    have hrep : mergeReport
        ⟨[], (entriesTree (src ++ "/" ++ d.name) collection d).map
          (fun e => e.2.2), [], 0⟩
        ⟨[], (entriesForest src collection rest).map (fun e => e.2.2),
          [], 0⟩
        = ⟨[], (entriesForest src collection (d :: rest)).map
          (fun e => e.2.2), [], 0⟩ := by
      unfold mergeReport
      rw [entriesForest_cons, List.map_append]
      rfl
    rw [hrep]

end

/-- C4 (amended): when the first size-verification run transfers every
out-of-sync file faithfully (no put fails or corrupts), it reports no
failures, and a second run against the unchanged remote store returns
zero succeeded files, every discovered file skipped (in traversal
order), no failures and a zero byte counter, leaving the store
untouched. -/
theorem c4_amended_clean_rerun_all_skipped (src destination : String)
    (t : FTree) (st : Store) (post doMeta : Bool)
    (putOut1 putOut2 : String → PutOutcome) (hwf : wfTree t = true)
    (hfa : ∀ p, putOut1 p = PutOutcome.faithful) :
    ∃ r1 st1 ops1 ops2,
      syncTree "size" post doMeta putOut1 src t destination st
          = (.ok r1, st1, ops1) ∧
        r1.failed = [] ∧
        syncTree "size" post doMeta putOut2 src t destination st1
          = (.ok ⟨[], (entriesTree src destination t).map (fun e => e.2.2),
            [], 0⟩, st1, ops2) := by
  obtain ⟨r1, st1, ops1, heq1, hfail, hfacts⟩ :=
    syncTree_faithful post doMeta putOut1 hfa t src destination st hwf
  obtain ⟨r2, st2, ops2x, heq2, _, _, _, _, _, _, _, hColl⟩ :=
    syncTree_run "size" post doMeta putOut1 (Or.inl rfl) t src
      destination st
  rw [heq1, Prod.mk.injEq, Prod.mk.injEq] at heq2
  obtain ⟨hre, hste, hope⟩ := heq2
  have hColl1 : ∀ c ∈ collsTree destination t, c ∈ st1.colls := by
    intro c hc
    rw [hste]
    exact hColl c hc
  obtain ⟨ops2, heqrun2⟩ := syncTree_allskip post doMeta putOut2 t src
    destination st1 hfacts hColl1
  exact ⟨r1, st1, ops1, ops2, heq1, hfail, heqrun2⟩

theorem c4_amended_clean_rerun_all_skipped_witness :
    wfTree (FTree.node "d" [⟨"a", 5, 7⟩]
      [FTree.node "x" [⟨"b", 3, 1⟩] []]) = true ∧
      (∀ p : String, (fun _ => PutOutcome.faithful) p
        = PutOutcome.faithful) ∧
      ∃ r1 st1 ops1 ops2,
        syncTree "size" false false (fun _ => PutOutcome.faithful) "/s"
            (FTree.node "d" [⟨"a", 5, 7⟩] [FTree.node "x" [⟨"b", 3, 1⟩] []])
            "/z" ⟨[], []⟩
            = (.ok r1, st1, ops1) ∧
          r1.failed = [] ∧
          syncTree "size" false false (fun _ => PutOutcome.fail) "/s"
            (FTree.node "d" [⟨"a", 5, 7⟩] [FTree.node "x" [⟨"b", 3, 1⟩] []])
            "/z" st1
            = (.ok ⟨[], (entriesTree "/s" "/z"
                (FTree.node "d" [⟨"a", 5, 7⟩]
                  [FTree.node "x" [⟨"b", 3, 1⟩] []])).map (fun e => e.2.2),
              [], 0⟩, st1, ops2) :=
  ⟨by decide, fun p => rfl,
    c4_amended_clean_rerun_all_skipped "/s" "/z"
      (FTree.node "d" [⟨"a", 5, 7⟩] [FTree.node "x" [⟨"b", 3, 1⟩] []])
      ⟨[], []⟩ false false (fun _ => PutOutcome.faithful)
      (fun _ => PutOutcome.fail) (by decide) (fun p => rfl)⟩
